import Mathlib

/-!
Shallow embedding of the leaderboard top-k selectors
(`src/Leaderboard.cpp`, `src/PlayerStream.cpp`).

Conventions of the embedding:

* `Player` is modelled from the spec (the header defining it is not part of
  the sources): a ranked entity carries a numeric ordering key `level_`;
  the total order used by every selector is defined solely by `level_`,
  so the opaque payload is omitted.  Machine integers (`size_t`,
  `unsigned int` levels) are modelled as `Nat`; no arithmetic in the
  program can overflow a 64-bit counter for the list sizes involved, and
  all claims are about exact values.
* `std::floor(0.1 * N)` is modelled as `N / 10` (Nat division): for every
  `N` where the double product does not round across an integer this is
  the exact value, and the spec's own wording is `floor(0.1*N)`.
* Standard-library calls (`std::make_heap`, `std::pop_heap`, `std::sort`)
  are modelled by canonical implementations of their specified
  postconditions: Floyd heapify with classic sift-down for the heap
  operations, insertion sort for `std::sort` (sorted permutation).
* The elapsed-time field of `RankingResult` is wall-clock instrumentation
  (explicitly a non-goal in the spec) and is omitted from the model.
* Fallible operations return `Except`: the stream raising its exhaustion
  error becomes `RankErr.exhausted`, and reading `front()` of an empty
  buffer (undefined behaviour in the C++ source) is surfaced as
  `RankErr.emptyBuffer`.
* Loops are modelled by structural recursion on an explicit counter that
  equals the number of iterations the C++ loop performs, so every
  definition is kernel-computable.
-/

/-- Ranked entity. Modelled from the spec: the unit being ordered, carrying a
numeric ordering key (`level`); the total order is defined solely by `level`,
and the opaque payload (never read by any selector) is omitted. -/
structure Player where
  level_ : Nat
deriving DecidableEq, Inhabited, Repr

/-- Ordering of players by level, the order used by every selector. -/
def levelLE (a b : Player) : Prop := a.level_ ≤ b.level_

instance : DecidableRel levelLE := fun a b => inferInstanceAs (Decidable (a.level_ ≤ b.level_))

instance : IsTotal Player levelLE := ⟨fun a b => Nat.le_total a.level_ b.level_⟩

instance : IsTrans Player levelLE := ⟨fun _ _ _ h1 h2 => Nat.le_trans h1 h2⟩

instance : IsAntisymm Player levelLE :=
  ⟨fun a b h1 h2 => by cases a; cases b; simp only [Player.mk.injEq]; exact Nat.le_antisymm h1 h2⟩

/-- Ranking outcome: the selected top set and the checkpoint map.
The C++ `cutoffs_` member (`std::unordered_map<size_t, size_t>`) is modelled
as an association list with map-insertion semantics; the `elapsed_` timing
member is omitted (instrumentation, not behaviour). -/
structure RankingResult where
  top_ : List Player
  cutoffs_ : List (Nat × Nat)
deriving DecidableEq, Inhabited, Repr

/-- Insertion into the checkpoint map, modelling `cutoffs[c] = v` on
`std::unordered_map`: overwrite the value if the key is present, otherwise
add the binding. -/
def mapInsert (m : List (Nat × Nat)) (c v : Nat) : List (Nat × Nat) :=
  if m.any (fun q => q.1 = c) then m.map (fun q => if q.1 = c then (c, v) else q)
  else m ++ [(c, v)]

/-- Lookup in the checkpoint map. -/
def mapLookup (m : List (Nat × Nat)) (c : Nat) : Option Nat :=
  (m.find? (fun q => q.1 = c)).map (fun q => q.2)

/-- Index of the parent of heap node `c` (0-indexed binary heap). -/
def parentIdx (c : Nat) : Nat := (c - 1) / 2

/-- Swap of two list positions, modelling `std::swap` / `std::iter_swap`
on vector elements. -/
def swapL (a : List Player) (i j : Nat) : List Player :=
  (a.set i (a.getD j default)).set j (a.getD i default)

/-- The body of each sift-down iteration of `Online::replaceMin`: starting
from `smallest = cur`, move `smallest` to the left child and then to the
right child whenever that child is within the region and sits above the
current `smallest`. -/
def pickChild (above : Player → Player → Bool) (a : List Player) (n cur : Nat) : Nat :=
  let l := 2 * cur + 1
  let r := 2 * cur + 2
  let s1 := if l < n ∧ above (a.getD l default) (a.getD cur default) then l else cur
  if r < n ∧ above (a.getD r default) (a.getD s1 default) then r else s1

/-- One sift-down pass over the heap region `[0, n)` starting at node `cur`,
with `above x y = true` meaning `x` must sit above `y` in the heap.  This is
the loop of `Online::replaceMin` verbatim (pick the preferred node among the
current one and its children, stop if unchanged, else swap and continue),
and also the canonical sift-down used to model `std::make_heap` /
`std::pop_heap`.  The counter `fuel` bounds the descent; it is called with
`fuel = n - cur`, which the descent (strictly increasing node index) can
never exhaust early. -/
def siftDownAux (above : Player → Player → Bool) : Nat → List Player → Nat → Nat → List Player
  | 0, a, _, _ => a
  | fuel + 1, a, n, cur =>
    let s2 := pickChild above a n cur
    if s2 = cur then a else siftDownAux above fuel (swapL a cur s2) n s2

/-- Sift-down from `cur` in the heap region `[0, n)`. -/
def siftDown (above : Player → Player → Bool) (a : List Player) (n cur : Nat) : List Player :=
  siftDownAux above (n - cur) a n cur

/-- Floyd heap construction: sift down the internal nodes `i-1, i-2, ..., 0`. -/
def makeHeapAux (above : Player → Player → Bool) : List Player → Nat → List Player
  | a, 0 => a
  | a, i + 1 => makeHeapAux above (siftDown above a a.length i) i

/-- Model of `std::make_heap` (canonical Floyd heapify): arrange the whole
list into a heap for the given priority. -/
def makeHeap (above : Player → Player → Bool) (a : List Player) : List Player :=
  makeHeapAux above a (a.length / 2)

/-- Max-heap priority used by the offline heap selector: `std::make_heap` /
`std::pop_heap` with the default `operator<` on `Player`, which compares
levels, so the greater level sits above. -/
def aboveMax (x y : Player) : Bool := y.level_ < x.level_

/-- Min-heap priority used by the streaming selector: the comparator
`a.level_ > b.level_` passed to `std::make_heap`, and the direct level
comparisons of `Online::replaceMin`, put the smaller level above. -/
def aboveMin (x y : Player) : Bool := x.level_ < y.level_

/-- Model of `std::pop_heap` on the region `[0, m)`: swap the root with the
last element of the region and restore the heap on `[0, m-1)`. -/
def popHeapMax (a : List Player) (m : Nat) : List Player :=
  siftDown aboveMax (swapL a 0 (m - 1)) (m - 1) 0

/-- The pop loop of `Offline::heapRank`: `count` iterations of
`std::pop_heap(begin, end - i)` for `i = i0, i0+1, ...`. -/
def popLoop (a : List Player) : Nat → Nat → List Player
  | _, 0 => a
  | i, count + 1 => popLoop (popHeapMax a (a.length - i)) (i + 1) count

/-- Sorting a list of players ascending by level; models `std::sort` on
players (sorted permutation). -/
def sortP (l : List Player) : List Player := List.insertionSort levelLE l

/-- Sorting a list of naturals ascending; used on lists of levels. -/
def sortNat (l : List Nat) : List Nat := List.insertionSort (fun a b => a ≤ b) l

/-- Levels of a list of players. -/
def levelsOf (l : List Player) : List Nat := l.map Player.level_

/-- Offline heap selector (`Offline::heapRank`): build a max-heap over the
whole collection, pop `floor(0.1*N)` maxima (each pop parks the current
maximum at the end of the shrinking heap region), and return the trailing
segment as `top_`, with empty `cutoffs_`. -/
def heapRank (players : List Player) : RankingResult :=
  let tenPer := players.length / 10
  let heaped := makeHeap aboveMax players
  let popped := popLoop heaped 0 tenPer
  { top_ := popped.drop (popped.length - tenPer), cutoffs_ := [] }

/-- The scan loop of `Offline::partition` (Lomuto): for `it` from `low` to
`high - 1`, grow the prefix of elements with level `≥ pivot.level_`.
`fuel` is the number of remaining iterations (`high - it`). -/
def partLoop (pivot : Player) : Nat → List Player → Int → Int → List Player × Int
  | 0, a, i, _ => (a, i)
  | fuel + 1, a, i, it =>
    if (a.getD it.toNat default).level_ ≥ pivot.level_ then
      partLoop pivot fuel (swapL a (i + 1).toNat it.toNat) (i + 1) (it + 1)
    else partLoop pivot fuel a i (it + 1)

/-- Lomuto partition (`Offline::partition`): pivot is the element at `high`;
elements with level `≥` the pivot's are moved before the final pivot
position, the rest after.  Returns the permuted list and the pivot's final
position. -/
def partition (a : List Player) (low high : Int) : List Player × Int :=
  let pivot := a.getD high.toNat default
  let (b, i) := partLoop pivot (high - low).toNat a (low - 1) low
  (swapL b (i + 1).toNat high.toNat, i + 1)

/-- The quickselect loop of `Offline::quickSelect`: repeatedly partition,
narrowing to the side containing `cutoffIndex`, until the pivot lands on
`cutoffIndex` or the interval empties.  `fuel` bounds the iterations; it is
called with the initial interval length, which the loop (shrinking the
interval every iteration) can never exhaust early. -/
def quickSelectAux : Nat → List Player → Int → Int → Int → List Player
  | 0, a, _, _, _ => a
  | fuel + 1, a, left, right, cutoffIndex =>
    if left ≤ right then
      let (b, pivotIndex) := partition a left right
      if pivotIndex = cutoffIndex then b
      else if pivotIndex > cutoffIndex then quickSelectAux fuel b left (pivotIndex - 1) cutoffIndex
      else quickSelectAux fuel b (pivotIndex + 1) right cutoffIndex
    else a

/-- `Offline::quickSelect` on the interval `[left, right]`. -/
def quickSelect (a : List Player) (left right cutoffIndex : Int) : List Player :=
  quickSelectAux (right + 1 - left).toNat a left right cutoffIndex

/-- Offline partition selector (`Offline::quickSelectRank`): quickselect at
`cutoffIndex = N - floor(0.1*N)`, then `std::sort` the tail
`[cutoffIndex, N)` ascending and return it as `top_`, with empty
`cutoffs_`. -/
def quickSelectRank (players : List Player) : RankingResult :=
  let tenPer := players.length / 10
  let cutoffIndex := players.length - tenPer
  let a := quickSelect players 0 ((players.length : Int) - 1) (cutoffIndex : Int)
  { top_ := sortP (a.drop cutoffIndex), cutoffs_ := [] }

/-- Errors surfaced by the model: the stream's exhaustion error
(`std::runtime_error` in `VectorPlayerStream::nextPlayer`), and reading
`front()` of an empty buffer (undefined behaviour in the C++ source,
surfaced as a distinguished error). -/
inductive RankErr where
  | exhausted
  | emptyBuffer
deriving DecidableEq, Repr

/-- Entity source (`VectorPlayerStream`): a cursor over a vector of
players. -/
structure VectorPlayerStream where
  players_ : List Player
  currentIndex_ : Nat
deriving DecidableEq, Repr

/-- `VectorPlayerStream::remaining`: count of entities not yet consumed. -/
def remaining (s : VectorPlayerStream) : Nat := s.players_.length - s.currentIndex_

/-- `VectorPlayerStream::nextPlayer`: fail if the cursor is past the end,
otherwise return the current entity and advance the cursor. -/
def nextPlayer (s : VectorPlayerStream) : Except RankErr (Player × VectorPlayerStream) :=
  if s.currentIndex_ ≥ s.players_.length then .error .exhausted
  else .ok (s.players_.getD s.currentIndex_ default,
    { players_ := s.players_, currentIndex_ := s.currentIndex_ + 1 })

/-- `Online::replaceMin`: overwrite the root of the min-heap with `target`
and sift it down (the hand-written loop of the source, which is exactly
`siftDown aboveMin` over the whole buffer). -/
def replaceMin (buf : List Player) (target : Player) : List Player :=
  siftDown aboveMin (buf.set 0 target) buf.length 0

/-- The consume loop of `Online::rankIncoming`.  Each iteration: take the
next player; if the buffer is below capacity push it (heapifying the moment
capacity is reached), otherwise admit it by `replaceMin` exactly when its
level exceeds the root's; then, whenever the processed count is a multiple
of the capacity, record the root level as a checkpoint.  `fuel` is the
number of loop iterations (`remaining s` at entry). -/
def rankLoopAux (k : Nat) : Nat → VectorPlayerStream → List Player → List (Nat × Nat) → Nat →
    Except RankErr (List Player × List (Nat × Nat) × Nat)
  | 0, _, buf, cuts, processed => .ok (buf, cuts, processed)
  | fuel + 1, s, buf, cuts, processed =>
    if remaining s = 0 then .ok (buf, cuts, processed)
    else
      match nextPlayer s with
      | .error e => .error e
      | .ok (p, s1) =>
        let processed1 := processed + 1
        let bufE : Except RankErr (List Player) :=
          if buf.length < k then
            let buf1 := buf ++ [p]
            .ok (if buf1.length = k then makeHeap aboveMin buf1 else buf1)
          else
            match buf.head? with
            | none => .error .emptyBuffer
            | some root => .ok (if root.level_ < p.level_ then replaceMin buf p else buf)
        match bufE with
        | .error e => .error e
        | .ok buf1 =>
          if processed1 % k = 0 then
            match buf1.head? with
            | none => .error .emptyBuffer
            | some root1 =>
              rankLoopAux k fuel s1 buf1 (mapInsert cuts processed1 root1.level_) processed1
          else rankLoopAux k fuel s1 buf1 cuts processed1

/-- Streaming bounded selector (`Online::rankIncoming`): drain the stream
through the consume loop, record one final checkpoint at the total count if
the buffer is non-empty, and return the buffer sorted ascending by level. -/
def rankIncoming (s : VectorPlayerStream) (reporting_interval : Nat) :
    Except RankErr RankingResult :=
  match rankLoopAux reporting_interval (remaining s) s [] [] 0 with
  | .error e => .error e
  | .ok (buf, cuts, processed) =>
    let cuts1 :=
      match buf.head? with
      | some root => mapInsert cuts processed root.level_
      | none => cuts
    .ok { top_ := sortP buf, cutoffs_ := cuts1 }

/-- Spec-side value: the minimum level in the top-`k` set of `l`, i.e. the
`k`-th largest level, read off as position `|l| - k` of the ascending sort
of the levels. -/
def topKMinLevel (k : Nat) (l : List Player) : Nat :=
  (sortNat (levelsOf l)).getD (l.length - k) 0

/-- Spec-side value on lists of levels: position `|pre| - k` of the
ascending sort, the `k`-th largest level of `pre`. -/
def cutVal (k : Nat) (pre : List Nat) : Nat := (sortNat pre).getD (pre.length - k) 0

/-- Heap property of the region `[0, n)` restricted to parents `≥ t`:
no child may sit above its parent. `HeapFrom above a n 0` is the full heap
property of the region. -/
def HeapFrom (above : Player → Player → Bool) (a : List Player) (n t : Nat) : Prop :=
  ∀ c, 0 < c → c < n → t ≤ parentIdx c →
    above (a.getD c default) (a.getD (parentIdx c) default) = false

/-- Descendant relation of the 0-indexed binary heap shape: `IsDesc r j`
holds when the parent chain of `j` passes through `r`. -/
inductive IsDesc (r : Nat) : Nat → Prop where
  | refl : IsDesc r r
  | step : ∀ {c : Nat}, 0 < c → IsDesc r (parentIdx c) → IsDesc r c

/-- Invariant of the pop loop of `Offline::heapRank` after `i` pops: the
array is a permutation of the input, the active region `[0, N - i)` is still
a max-heap, the parked tail `[N - i, N)` holds (position by position) the
ascending sort of all levels, and every tail element dominates every active
element. -/
def PopInv (players a : List Player) (i : Nat) : Prop :=
  a.length = players.length ∧
  a.Perm players ∧
  HeapFrom aboveMax a (players.length - i) 0 ∧
  (∀ t, players.length - i ≤ t → t < players.length →
    (a.getD t default).level_ = (sortNat (levelsOf players)).getD t 0) ∧
  (∀ q, q < players.length - i → ∀ t, players.length - i ≤ t → t < players.length →
    (a.getD q default).level_ ≤ (a.getD t default).level_)

/-- Invariant of the consume loop of `Online::rankIncoming` after the
players in `seen` have been processed, for capacity `k ≥ 1`.  Below
capacity the buffer is exactly the prefix read so far and no checkpoint
exists; at capacity the buffer is a `k`-sized min-heap whose sorted levels
are the top `k` levels of `seen`, and the checkpoint list has strictly
increasing keys with non-decreasing values, each key a multiple of `k`
within range holding the `k`-th largest level of the corresponding prefix,
and no recorded value above the current admission bar (the root level). -/
def StreamInv (k : Nat) (seen buf : List Player) (cuts : List (Nat × Nat)) : Prop :=
  (seen.length < k → buf = seen ∧ cuts = []) ∧
  (k ≤ seen.length →
    buf.length = k ∧
    HeapFrom aboveMin buf k 0 ∧
    sortNat (levelsOf buf) = (sortNat (levelsOf seen)).drop (seen.length - k) ∧
    List.Pairwise (fun q1 q2 => q1.1 < q2.1 ∧ q1.2 ≤ q2.2) cuts ∧
    (∀ q ∈ cuts, k ≤ q.1 ∧ q.1 ≤ seen.length ∧ q.1 % k = 0 ∧
      q.2 = cutVal k (levelsOf (seen.take q.1)) ∧
      q.2 ≤ (buf.getD 0 default).level_))


/-! ## List index and permutation toolkit -/

theorem getD_set_self {α : Type} (a : List α) (i : Nat) (v d : α) (h : i < a.length) :
    (a.set i v).getD i d = v := by
  rw [List.getD_eq_getElem?_getD, List.getElem?_set_self h]
  rfl

theorem getD_set_ne {α : Type} (a : List α) (i j : Nat) (v d : α) (h : i ≠ j) :
    (a.set i v).getD j d = a.getD j d := by
  rw [List.getD_eq_getElem?_getD, List.getElem?_set_ne h, ← List.getD_eq_getElem?_getD]

theorem getD_mem {α : Type} (a : List α) (i : Nat) (d : α) (h : i < a.length) :
    a.getD i d ∈ a := by
  rw [List.getD_eq_getElem?_getD, List.getElem?_eq_getElem h]
  exact List.getElem_mem h

theorem length_swapL (a : List Player) (i j : Nat) : (swapL a i j).length = a.length := by
  simp [swapL]

theorem getD_irrel {α : Type} (a : List α) (i : Nat) (d1 d2 : α) (h : i < a.length) :
    a.getD i d1 = a.getD i d2 := by
  rw [List.getD_eq_getElem?_getD, List.getD_eq_getElem?_getD, List.getElem?_eq_getElem h]
  rfl

theorem getD_swapL_left (a : List Player) (i j : Nat) (d : Player) (hi : i < a.length)
    (hj : j < a.length) (hij : i ≠ j) : (swapL a i j).getD i d = a.getD j d := by
  unfold swapL
  rw [getD_set_ne _ _ _ _ _ (fun h => hij h.symm), getD_set_self _ _ _ _ hi]
  exact getD_irrel a j default d hj

theorem getD_swapL_right (a : List Player) (i j : Nat) (d : Player) (hi : i < a.length)
    (hj : j < a.length) : (swapL a i j).getD j d = a.getD i d := by
  unfold swapL
  rw [getD_set_self _ _ _ _ (by simpa using hj)]
  exact getD_irrel a i default d hi

theorem getD_swapL_other (a : List Player) (i j t : Nat) (d : Player) (hti : t ≠ i)
    (htj : t ≠ j) : (swapL a i j).getD t d = a.getD t d := by
  unfold swapL
  rw [getD_set_ne _ _ _ _ _ (fun h => htj h.symm), getD_set_ne _ _ _ _ _ (fun h => hti h.symm)]

theorem perm_cons_set {α : Type} : ∀ (t : List α) (m : Nat) (v d : α), m < t.length →
    (t.getD m d :: t.set m v).Perm (v :: t)
  | x :: r, 0, v, d, _ => by
    simpa using List.Perm.swap v x r
  | x :: r, m + 1, v, d, h => by
    have hm : m < r.length := by simpa using Nat.lt_of_succ_lt_succ h
    have ih := perm_cons_set r m v d hm
    simp only [List.getD_cons_succ, List.set_cons_succ]
    exact (List.Perm.swap x (r.getD m d) (r.set m v)).trans
      ((ih.cons x).trans (List.Perm.swap v x r))

theorem swapL_perm : ∀ (a : List Player) (i j : Nat), i < a.length → j < a.length →
    (swapL a i j).Perm a
  | [], i, j, hi, _ => absurd hi (by simp)
  | h :: t, 0, 0, _, _ => by simp [swapL]
  | h :: t, 0, m + 1, _, hj => by
    have hm : m < t.length := by simpa using Nat.lt_of_succ_lt_succ hj
    simp only [swapL, List.getD_cons_succ, List.getD_cons_zero, List.set_cons_zero,
      List.set_cons_succ]
    exact perm_cons_set t m h default hm
  | h :: t, n + 1, 0, hi, _ => by
    have hn : n < t.length := by simpa using Nat.lt_of_succ_lt_succ hi
    simp only [swapL, List.getD_cons_succ, List.getD_cons_zero, List.set_cons_succ,
      List.set_cons_zero]
    exact perm_cons_set t n h default hn
  | h :: t, n + 1, m + 1, hi, hj => by
    have hn : n < t.length := by simpa using Nat.lt_of_succ_lt_succ hi
    have hm : m < t.length := by simpa using Nat.lt_of_succ_lt_succ hj
    simp only [swapL, List.getD_cons_succ, List.set_cons_succ]
    exact (swapL_perm t n m hn hm).cons h

/-! ## Heap shape: parent indices and descendants -/

theorem parentIdx_lt {c : Nat} (h : 0 < c) : parentIdx c < c := by
  unfold parentIdx
  have := Nat.div_le_self (c - 1) 2
  omega

theorem parentIdx_child_left (cur : Nat) : parentIdx (2 * cur + 1) = cur := by
  unfold parentIdx; omega

theorem parentIdx_child_right (cur : Nat) : parentIdx (2 * cur + 2) = cur := by
  unfold parentIdx; omega

theorem child_of_parentIdx {c : Nat} (h : 0 < c) :
    c = 2 * parentIdx c + 1 ∨ c = 2 * parentIdx c + 2 := by
  unfold parentIdx; omega

theorem IsDesc.le {r j : Nat} (h : IsDesc r j) : r ≤ j := by
  induction h with
  | refl => exact Nat.le_refl r
  | step hc _ ih => exact Nat.le_trans ih (Nat.le_of_lt (parentIdx_lt hc))

theorem IsDesc.trans {r s j : Nat} (h1 : IsDesc r s) (h2 : IsDesc s j) : IsDesc r j := by
  induction h2 with
  | refl => exact h1
  | step hc _ ih => exact IsDesc.step hc ih

theorem isDesc_zero : ∀ j, IsDesc 0 j := by
  intro j
  induction j using Nat.strong_induction_on with
  | _ j ih =>
    match j, ih with
    | 0, _ => exact IsDesc.refl
    | j + 1, ih => exact IsDesc.step (Nat.succ_pos j) (ih _ (parentIdx_lt (Nat.succ_pos j)))

theorem IsDesc.child {r cur c : Nat} (h : IsDesc r cur)
    (hc : c = 2 * cur + 1 ∨ c = 2 * cur + 2) : IsDesc r c := by
  rcases hc with hc | hc
  · exact IsDesc.step (by omega) (by rwa [hc, parentIdx_child_left])
  · exact IsDesc.step (by omega) (by rwa [hc, parentIdx_child_right])

theorem IsDesc.up {r c : Nat} (h : IsDesc r c) (hne : c ≠ r) :
    0 < c ∧ IsDesc r (parentIdx c) := by
  cases h with
  | refl => exact absurd rfl hne
  | step hc hp => exact ⟨hc, hp⟩

/-! ## Sift-down: basic structure -/

theorem pickChild_ne {above : Player → Player → Bool} {a : List Player} {n cur : Nat}
    (h : pickChild above a n cur ≠ cur) :
    cur < pickChild above a n cur ∧ pickChild above a n cur < n ∧
      (pickChild above a n cur = 2 * cur + 1 ∨ pickChild above a n cur = 2 * cur + 2) := by
  simp only [pickChild] at h ⊢
  by_cases hl : 2 * cur + 1 < n ∧ above (a.getD (2 * cur + 1) default) (a.getD cur default) = true
  · simp only [if_pos hl] at h ⊢
    by_cases hr : 2 * cur + 2 < n ∧
        above (a.getD (2 * cur + 2) default) (a.getD (2 * cur + 1) default) = true
    · simp only [if_pos hr] at h ⊢
      exact ⟨by omega, hr.1, Or.inr trivial⟩
    · simp only [if_neg hr] at h ⊢
      exact ⟨by omega, hl.1, Or.inl trivial⟩
  · simp only [if_neg hl] at h ⊢
    by_cases hr : 2 * cur + 2 < n ∧
        above (a.getD (2 * cur + 2) default) (a.getD cur default) = true
    · simp only [if_pos hr] at h ⊢
      exact ⟨by omega, hr.1, Or.inr trivial⟩
    · simp only [if_neg hr] at h ⊢
      exact absurd rfl h

theorem siftDownAux_length (above : Player → Player → Bool) :
    ∀ (fuel : Nat) (a : List Player) (n cur : Nat),
      (siftDownAux above fuel a n cur).length = a.length
  | 0, _, _, _ => rfl
  | fuel + 1, a, n, cur => by
    simp only [siftDownAux]
    split
    · rfl
    · rw [siftDownAux_length above fuel, length_swapL]

theorem siftDownAux_perm (above : Player → Player → Bool) :
    ∀ (fuel : Nat) (a : List Player) (n cur : Nat), n ≤ a.length →
      (siftDownAux above fuel a n cur).Perm a
  | 0, a, _, _, _ => List.Perm.refl a
  | fuel + 1, a, n, cur, h => by
    simp only [siftDownAux]
    split
    · exact List.Perm.refl a
    · rename_i hne
      obtain ⟨hlt, hn, _⟩ := pickChild_ne hne
      exact (siftDownAux_perm above fuel _ n _ (by rwa [length_swapL])).trans
        (swapL_perm a cur _ (by omega) (by omega))

theorem siftDownAux_stable (above : Player → Player → Bool) :
    ∀ (fuel : Nat) (a : List Player) (n cur j : Nat) (d : Player), n ≤ j →
      (siftDownAux above fuel a n cur).getD j d = a.getD j d
  | 0, _, _, _, _, _, _ => rfl
  | fuel + 1, a, n, cur, j, d, hj => by
    simp only [siftDownAux]
    split
    · rfl
    · rename_i hne
      obtain ⟨hlt, hn, _⟩ := pickChild_ne hne
      rw [siftDownAux_stable above fuel _ n _ j d hj,
        getD_swapL_other a cur _ j d (by omega) (by omega)]

/-! ## Sift-down: heap restoration -/

theorem above_irrefl {above : Player → Player → Bool}
    (Hasym : ∀ x y, above x y = true → above y x = false) (x : Player) :
    above x x = false := by
  by_cases h : above x x = true
  · exact (Hasym x x h).symm.trans h |>.symm ▸ (Hasym x x h)
  · exact Bool.eq_false_iff.mpr h

theorem pickChild_spec (above : Player → Player → Bool)
    (Htt : ∀ x y z, above x y = true → above y z = true → above x z = true)
    (Hasym : ∀ x y, above x y = true → above y x = false)
    (a : List Player) (n cur : Nat) :
    (pickChild above a n cur = cur ∧
      (∀ c, c < n → (c = 2 * cur + 1 ∨ c = 2 * cur + 2) →
        above (a.getD c default) (a.getD cur default) = false)) ∨
    (cur < pickChild above a n cur ∧ pickChild above a n cur < n ∧
      (pickChild above a n cur = 2 * cur + 1 ∨ pickChild above a n cur = 2 * cur + 2) ∧
      above (a.getD (pickChild above a n cur) default) (a.getD cur default) = true ∧
      (∀ c, c < n → (c = 2 * cur + 1 ∨ c = 2 * cur + 2) → c ≠ pickChild above a n cur →
        above (a.getD c default) (a.getD (pickChild above a n cur) default) = false)) := by
  simp only [pickChild]
  by_cases hl : 2 * cur + 1 < n ∧ above (a.getD (2 * cur + 1) default) (a.getD cur default) = true
  · simp only [if_pos hl]
    by_cases hr : 2 * cur + 2 < n ∧
        above (a.getD (2 * cur + 2) default) (a.getD (2 * cur + 1) default) = true
    · simp only [if_pos hr]
      refine Or.inr ⟨by omega, hr.1, Or.inr trivial, Htt _ _ _ hr.2 hl.2, ?_⟩
      intro c _ hcc hcne
      rcases hcc with rfl | rfl
      · exact Hasym _ _ hr.2
      · exact absurd rfl hcne
    · simp only [if_neg hr]
      refine Or.inr ⟨by omega, hl.1, Or.inl trivial, hl.2, ?_⟩
      intro c hcn hcc hcne
      rcases hcc with rfl | rfl
      · exact absurd rfl hcne
      · exact Bool.eq_false_iff.mpr (fun hb => hr ⟨hcn, hb⟩)
  · simp only [if_neg hl]
    by_cases hr : 2 * cur + 2 < n ∧
        above (a.getD (2 * cur + 2) default) (a.getD cur default) = true
    · simp only [if_pos hr]
      refine Or.inr ⟨by omega, hr.1, Or.inr trivial, hr.2, ?_⟩
      intro c hcn hcc hcne
      rcases hcc with rfl | rfl
      · refine Bool.eq_false_iff.mpr (fun hb => ?_)
        have h1 := Htt _ _ _ hb hr.2
        exact hl ⟨hcn, h1⟩
      · exact absurd rfl hcne
    · simp only [if_neg hr]
      refine Or.inl ⟨trivial, ?_⟩
      intro c hcn hcc
      rcases hcc with rfl | rfl
      · exact Bool.eq_false_iff.mpr (fun hb => hl ⟨hcn, hb⟩)
      · exact Bool.eq_false_iff.mpr (fun hb => hr ⟨hcn, hb⟩)

theorem subtree_bound {above : Player → Player → Bool}
    (Hftr : ∀ x y z, above x y = false → above y z = false → above x z = false)
    (Hasym : ∀ x y, above x y = true → above y x = false)
    (a : List Player) (n root : Nat)
    (H : ∀ p c, 0 < c → c < n → parentIdx c = p → IsDesc root p →
      above (a.getD c default) (a.getD p default) = false) :
    ∀ j, IsDesc root j → j < n → above (a.getD j default) (a.getD root default) = false := by
  intro j hj
  induction hj with
  | refl => exact fun _ => above_irrefl Hasym _
  | @step c hc hp ih =>
    intro hn
    have h1 := H (parentIdx c) c hc hn rfl hp
    exact Hftr _ _ _ h1 (ih (Nat.lt_trans (parentIdx_lt hc) hn))

theorem sibling_not_desc {cur s2 o : Nat}
    (hs2 : s2 = 2 * cur + 1 ∨ s2 = 2 * cur + 2)
    (ho : o = 2 * cur + 1 ∨ o = 2 * cur + 2) (hne : o ≠ s2) : ¬ IsDesc s2 o := by
  intro h
  obtain ⟨hpos, hup⟩ := h.up hne
  have hpar : parentIdx o = cur := by
    rcases ho with rfl | rfl
    · exact parentIdx_child_left cur
    · exact parentIdx_child_right cur
  rw [hpar] at hup
  have := hup.le
  omega

theorem notDesc_of_lt {r j : Nat} (h : j < r) : ¬ IsDesc r j :=
  fun hd => absurd hd.le (by omega)

theorem siftDownAux_heap (above : Player → Player → Bool)
    (Htt : ∀ x y z, above x y = true → above y z = true → above x z = true)
    (Hftr : ∀ x y z, above x y = false → above y z = false → above x z = false)
    (Hasym : ∀ x y, above x y = true → above y x = false) :
    ∀ (fuel : Nat) (a : List Player) (n cur : Nat), n ≤ a.length → n ≤ cur + fuel →
    (∀ p c, 0 < c → c < n → parentIdx c = p → IsDesc cur p → p ≠ cur →
      above (a.getD c default) (a.getD p default) = false) →
    ((∀ p c, 0 < c → c < n → parentIdx c = p → IsDesc cur p →
        above ((siftDownAux above fuel a n cur).getD c default)
          ((siftDownAux above fuel a n cur).getD p default) = false) ∧
     (∀ j (d : Player), ¬ IsDesc cur j →
        (siftDownAux above fuel a n cur).getD j d = a.getD j d) ∧
     (∀ j, IsDesc cur j → j < n → ∃ j0, IsDesc cur j0 ∧ j0 < n ∧
        (siftDownAux above fuel a n cur).getD j default = a.getD j0 default))
  | 0, a, n, cur, _, hfuel, Hsub => by
    refine ⟨?_, fun _ _ _ => rfl, fun j hj hjn => ⟨j, hj, hjn, rfl⟩⟩
    intro p c hc hcn hpar hdesc
    have h1 : cur ≤ p := hdesc.le
    have h2 : p < c := hpar ▸ parentIdx_lt hc
    omega
  | fuel + 1, a, n, cur, hlen, hfuel, Hsub => by
    simp only [siftDownAux]
    by_cases hs2 : pickChild above a n cur = cur
    · rw [if_pos hs2]
      refine ⟨?_, fun _ _ _ => rfl, fun j hj hjn => ⟨j, hj, hjn, rfl⟩⟩
      intro p c hc hcn hpar hdesc
      by_cases hpc : p = cur
      · rw [hpc] at hpar ⊢
        rcases pickChild_spec above Htt Hasym a n cur with ⟨_, hall⟩ | ⟨hlt, _⟩
        · exact hall c hcn (hpar ▸ child_of_parentIdx hc)
        · omega
      · exact Hsub p c hc hcn hpar hdesc hpc
    · rw [if_neg hs2]
      rcases pickChild_spec above Htt Hasym a n cur with ⟨heq, _⟩ | ⟨hlt, hs2n, hchild, F1, F2⟩
      · exact absurd heq hs2
      set s2 := pickChild above a n cur with hs2def
      have hcurn : cur < n := by omega
      have hcs2 : IsDesc cur s2 := IsDesc.child IsDesc.refl hchild
      have hlen1 : n ≤ (swapL a cur s2).length := by rwa [length_swapL]
      have hswap_cur : (swapL a cur s2).getD cur default = a.getD s2 default :=
        getD_swapL_left a cur s2 default (by omega) (by omega) (by omega)
      have hswap_s2 : (swapL a cur s2).getD s2 default = a.getD cur default :=
        getD_swapL_right a cur s2 default (by omega) (by omega)
      have hswap_other : ∀ j (d : Player), j ≠ cur → j ≠ s2 →
          (swapL a cur s2).getD j d = a.getD j d :=
        fun j d h1 h2 => getD_swapL_other a cur s2 j d h1 h2
      have hbound : ∀ j, IsDesc s2 j → j < n →
          above (a.getD j default) (a.getD s2 default) = false := by
        refine subtree_bound Hftr Hasym a n s2 ?_
        intro p c hc hcn hpar hdesc
        exact Hsub p c hc hcn hpar (hcs2.trans hdesc) (by have := hdesc.le; omega)
      have Hsub1 : ∀ p c, 0 < c → c < n → parentIdx c = p → IsDesc s2 p → p ≠ s2 →
          above ((swapL a cur s2).getD c default) ((swapL a cur s2).getD p default) = false := by
        intro p c hc hcn hpar hdesc hne
        have hps : s2 < p := by
          have := hdesc.le
          omega
        have hpc : p < c := hpar ▸ parentIdx_lt hc
        rw [hswap_other p default (by omega) (by omega),
          hswap_other c default (by omega) (by omega)]
        exact Hsub p c hc hcn hpar (hcs2.trans hdesc) (by omega)
      obtain ⟨IH1, IH2, IH3⟩ := siftDownAux_heap above Htt Hftr Hasym fuel
        (swapL a cur s2) n s2 hlen1 (by omega) Hsub1
      have hnd_cur : ¬ IsDesc s2 cur := notDesc_of_lt hlt
      have hres_cur : (siftDownAux above fuel (swapL a cur s2) n s2).getD cur default =
          a.getD s2 default := by
        rw [IH2 cur default hnd_cur, hswap_cur]
      refine ⟨?_, ?_, ?_⟩
      · intro p c hc hcn hpar hdesc
        by_cases hpd : IsDesc s2 p
        · exact IH1 p c hc hcn hpar hpd
        · by_cases hpc : p = cur
          · rw [hpc] at hpar ⊢
            have hcc : c = 2 * cur + 1 ∨ c = 2 * cur + 2 := hpar ▸ child_of_parentIdx hc
            rw [hres_cur]
            by_cases hcs : c = s2
            · rw [hcs]
              obtain ⟨j0, hj0d, hj0n, hval⟩ := IH3 s2 IsDesc.refl hs2n
              rw [hval]
              by_cases hj0c : j0 = s2
              · rw [hj0c, hswap_s2]
                exact Hasym _ _ F1
              · have hj0gt : s2 < j0 := by
                  have := hj0d.le
                  omega
                rw [hswap_other j0 default (by omega) hj0c]
                exact hbound j0 hj0d hj0n
            · have hcnd : ¬ IsDesc s2 c := sibling_not_desc hchild hcc hcs
              rw [IH2 c default hcnd, hswap_other c default (by omega) hcs]
              exact F2 c hcn hcc hcs
          · have hps : cur < p := by
              have := hdesc.le
              omega
            have hcs : c ≠ s2 := by
              intro hcs
              have hpar2 : parentIdx s2 = cur := by
                rcases hchild with h | h
                · rw [h]; exact parentIdx_child_left cur
                · rw [h]; exact parentIdx_child_right cur
              rw [hcs, hpar2] at hpar
              omega
            have hcnd : ¬ IsDesc s2 c := fun hd => hpd (hpar ▸ (hd.up hcs).2)
            have hccur : c ≠ cur := by
              have := parentIdx_lt hc
              omega
            rw [IH2 c default hcnd, hswap_other c default hccur hcs,
              IH2 p default hpd,
              hswap_other p default hpc (fun h => hpd (by rw [h]; exact IsDesc.refl))]
            exact Hsub p c hc hcn hpar hdesc hpc
      · intro j d hj
        have hjs : ¬ IsDesc s2 j := fun h => hj (hcs2.trans h)
        rw [IH2 j d hjs,
          hswap_other j d (fun h => hj (by rw [h]; exact IsDesc.refl))
            (fun h => hj (by rw [h]; exact hcs2))]
      · intro j hj hjn
        by_cases hds : IsDesc s2 j
        · obtain ⟨j0, hj0d, hj0n, hval⟩ := IH3 j hds hjn
          by_cases hj0s : j0 = s2
          · refine ⟨cur, IsDesc.refl, hcurn, ?_⟩
            rw [hval, hj0s, hswap_s2]
          · have hgt : s2 < j0 := by
              have := hj0d.le
              omega
            refine ⟨j0, hcs2.trans hj0d, hj0n, ?_⟩
            rw [hval, hswap_other j0 default (by omega) hj0s]
        · by_cases hjc : j = cur
          · refine ⟨s2, hcs2, hs2n, ?_⟩
            rw [IH2 j default hds, hjc, hswap_cur]
          · refine ⟨j, hj, hjn, ?_⟩
            rw [IH2 j default hds,
              hswap_other j default hjc (fun h => hds (by rw [h]; exact IsDesc.refl))]

theorem siftDown_heapFrom (above : Player → Player → Bool)
    (Htt : ∀ x y z, above x y = true → above y z = true → above x z = true)
    (Hftr : ∀ x y z, above x y = false → above y z = false → above x z = false)
    (Hasym : ∀ x y, above x y = true → above y x = false)
    (a : List Player) (n i : Nat) (hlen : n ≤ a.length)
    (H : HeapFrom above a n (i + 1)) : HeapFrom above (siftDown above a n i) n i := by
  unfold siftDown
  obtain ⟨C1, C2, _⟩ := siftDownAux_heap above Htt Hftr Hasym (n - i) a n i hlen (by omega)
    (fun p c hc hcn hpar hdesc hne => by
      subst hpar
      refine H c hc hcn ?_
      have h1 := hdesc.le
      omega)
  intro c hc hcn ht
  by_cases hd : IsDesc i (parentIdx c)
  · exact C1 (parentIdx c) c hc hcn rfl hd
  · have hipos : 0 < i := by
      rcases Nat.eq_zero_or_pos i with h | h
      · exact absurd (h ▸ isDesc_zero (parentIdx c)) hd
      · exact h
    have hci : c ≠ i := by
      have := parentIdx_lt hipos
      have := parentIdx_lt hc
      intro h
      rw [h] at ht
      omega
    have hcnd : ¬ IsDesc i c := fun h => hd (h.up hci).2
    rw [C2 c default hcnd, C2 (parentIdx c) default hd]
    refine H c hc hcn ?_
    have : parentIdx c ≠ i := fun h => hd (h ▸ IsDesc.refl)
    omega

theorem makeHeapAux_length (above : Player → Player → Bool) :
    ∀ (a : List Player) (i : Nat), (makeHeapAux above a i).length = a.length
  | _, 0 => rfl
  | a, i + 1 => by
    rw [makeHeapAux, makeHeapAux_length above _ i]
    unfold siftDown
    exact siftDownAux_length above _ a a.length i

theorem makeHeapAux_perm (above : Player → Player → Bool) :
    ∀ (a : List Player) (i : Nat), (makeHeapAux above a i).Perm a
  | _, 0 => List.Perm.refl _
  | a, i + 1 => by
    rw [makeHeapAux]
    exact (makeHeapAux_perm above _ i).trans
      (siftDownAux_perm above _ a a.length i (Nat.le_refl _))

theorem makeHeapAux_heapFrom (above : Player → Player → Bool)
    (Htt : ∀ x y z, above x y = true → above y z = true → above x z = true)
    (Hftr : ∀ x y z, above x y = false → above y z = false → above x z = false)
    (Hasym : ∀ x y, above x y = true → above y x = false) :
    ∀ (a : List Player) (i : Nat), HeapFrom above a a.length i →
      HeapFrom above (makeHeapAux above a i) a.length 0
  | _, 0, H => H
  | a, i + 1, H => by
    rw [makeHeapAux]
    have hstep := siftDown_heapFrom above Htt Hftr Hasym a a.length i (Nat.le_refl _) H
    have hlen : (siftDown above a a.length i).length = a.length :=
      siftDownAux_length above _ a a.length i
    have := makeHeapAux_heapFrom above Htt Hftr Hasym (siftDown above a a.length i) i
      (by rwa [hlen])
    rwa [hlen] at this

theorem makeHeap_length (above : Player → Player → Bool) (a : List Player) :
    (makeHeap above a).length = a.length := makeHeapAux_length above a _

theorem makeHeap_perm (above : Player → Player → Bool) (a : List Player) :
    (makeHeap above a).Perm a := makeHeapAux_perm above a _

theorem makeHeap_heapFrom (above : Player → Player → Bool)
    (Htt : ∀ x y z, above x y = true → above y z = true → above x z = true)
    (Hftr : ∀ x y z, above x y = false → above y z = false → above x z = false)
    (Hasym : ∀ x y, above x y = true → above y x = false) (a : List Player) :
    HeapFrom above (makeHeap above a) a.length 0 := by
  refine makeHeapAux_heapFrom above Htt Hftr Hasym a (a.length / 2) ?_
  intro c hc hcn ht
  unfold parentIdx at ht
  omega

theorem heapFrom_root (above : Player → Player → Bool)
    (Hftr : ∀ x y z, above x y = false → above y z = false → above x z = false)
    (Hasym : ∀ x y, above x y = true → above y x = false)
    (a : List Player) (n : Nat) (H : HeapFrom above a n 0) :
    ∀ j, j < n → above (a.getD j default) (a.getD 0 default) = false := by
  intro j
  induction j using Nat.strong_induction_on with
  | _ j ih =>
    intro hj
    match j with
    | 0 => exact above_irrefl Hasym _
    | j + 1 =>
      have hp := H (j + 1) (Nat.succ_pos j) hj (Nat.zero_le _)
      exact Hftr _ _ _ hp
        (ih (parentIdx (j + 1)) (parentIdx_lt (Nat.succ_pos j))
          (Nat.lt_trans (parentIdx_lt (Nat.succ_pos j)) hj))

theorem aboveMin_tt : ∀ x y z : Player, aboveMin x y = true → aboveMin y z = true →
    aboveMin x z = true := by
  intro x y z
  simp only [aboveMin, decide_eq_true_eq]
  omega

theorem aboveMin_ftr : ∀ x y z : Player, aboveMin x y = false → aboveMin y z = false →
    aboveMin x z = false := by
  intro x y z
  simp only [aboveMin, decide_eq_false_iff_not]
  omega

theorem aboveMin_asym : ∀ x y : Player, aboveMin x y = true → aboveMin y x = false := by
  intro x y
  simp only [aboveMin, decide_eq_true_eq, decide_eq_false_iff_not]
  omega

theorem aboveMax_tt : ∀ x y z : Player, aboveMax x y = true → aboveMax y z = true →
    aboveMax x z = true := by
  intro x y z
  simp only [aboveMax, decide_eq_true_eq]
  omega

theorem aboveMax_ftr : ∀ x y z : Player, aboveMax x y = false → aboveMax y z = false →
    aboveMax x z = false := by
  intro x y z
  simp only [aboveMax, decide_eq_false_iff_not]
  omega

theorem aboveMax_asym : ∀ x y : Player, aboveMax x y = true → aboveMax y x = false := by
  intro x y
  simp only [aboveMax, decide_eq_true_eq, decide_eq_false_iff_not]
  omega

/-! ## Sorted lists of levels -/

theorem getD_eq_getElem {α : Type} (l : List α) (i : Nat) (d : α) (h : i < l.length) :
    l.getD i d = l[i] := by
  rw [List.getD_eq_getElem?_getD, List.getElem?_eq_getElem h]
  rfl

theorem sortNat_length (l : List Nat) : (sortNat l).length = l.length :=
  List.length_insertionSort _ l

theorem sortNat_perm (l : List Nat) : (sortNat l).Perm l :=
  List.perm_insertionSort _ l

theorem sortNat_sorted (l : List Nat) : (sortNat l).Sorted (fun a b => a ≤ b) :=
  List.sorted_insertionSort _ l

theorem sortNat_eq_of {xs L : List Nat} (h1 : L.Perm xs)
    (h2 : L.Sorted (fun a b => a ≤ b)) : sortNat xs = L :=
  List.eq_of_perm_of_sorted ((sortNat_perm xs).trans h1.symm) (sortNat_sorted xs) h2

theorem sortNat_congr {xs ys : List Nat} (h : xs.Perm ys) : sortNat xs = sortNat ys :=
  sortNat_eq_of ((sortNat_perm ys).trans h.symm) (sortNat_sorted ys)

theorem sortNat_cons (v : Nat) (xs : List Nat) :
    sortNat (v :: xs) = List.orderedInsert (fun a b => a ≤ b) v (sortNat xs) := rfl

theorem sortNat_append_single (xs : List Nat) (v : Nat) :
    sortNat (xs ++ [v]) = List.orderedInsert (fun a b => a ≤ b) v (sortNat xs) := by
  rw [← sortNat_cons]
  exact sortNat_congr (List.perm_append_singleton v xs)

theorem sorted_getD_mono {L : List Nat} (h : L.Sorted (fun a b => a ≤ b)) {i j : Nat}
    (hij : i ≤ j) (hj : j < L.length) : L.getD i 0 ≤ L.getD j 0 := by
  rw [getD_eq_getElem L i 0 (by omega), getD_eq_getElem L j 0 hj]
  rcases Nat.lt_or_ge i j with hlt | hge
  · exact (List.pairwise_iff_getElem.mp h) i j (by omega) hj hlt
  · have : i = j := by omega
    subst this
    exact Nat.le_refl _

theorem sorted_getD_le_mem {L : List Nat} (h : L.Sorted (fun a b => a ≤ b)) {x : Nat}
    (hx : x ∈ L) : L.getD 0 0 ≤ x := by
  obtain ⟨t, ht, rfl⟩ := List.mem_iff_getElem.mp hx
  rw [← getD_eq_getElem L t 0 ht]
  exact sorted_getD_mono h (Nat.zero_le t) ht

theorem sorted_mem_le_last {L : List Nat} (h : L.Sorted (fun a b => a ≤ b)) {x : Nat}
    (hx : x ∈ L) : x ≤ L.getD (L.length - 1) 0 := by
  obtain ⟨t, ht, rfl⟩ := List.mem_iff_getElem.mp hx
  rw [← getD_eq_getElem L t 0 ht]
  exact sorted_getD_mono h (by omega) (by omega)

theorem sorted_head_eq_min {L : List Nat} (h : L.Sorted (fun a b => a ≤ b)) {x : Nat}
    (hmem : x ∈ L) (hmin : ∀ y ∈ L, x ≤ y) : L.getD 0 0 = x := by
  have h1 : L.getD 0 0 ≤ x := sorted_getD_le_mem h hmem
  have hne : 0 < L.length := List.length_pos.mpr (List.ne_nil_of_mem hmem)
  have h2 : x ≤ L.getD 0 0 := hmin _ (getD_mem L 0 0 hne)
  omega

theorem sorted_last_eq_max {L : List Nat} (h : L.Sorted (fun a b => a ≤ b)) {x : Nat}
    (hmem : x ∈ L) (hmax : ∀ y ∈ L, y ≤ x) : L.getD (L.length - 1) 0 = x := by
  have h1 : x ≤ L.getD (L.length - 1) 0 := sorted_mem_le_last h hmem
  have hne : 0 < L.length := List.length_pos.mpr (List.ne_nil_of_mem hmem)
  have h2 : L.getD (L.length - 1) 0 ≤ x := hmax _ (getD_mem L _ 0 (by omega))
  omega

theorem sortNat_split (xs L1 L2 : List Nat) (hperm : (L1 ++ L2).Perm xs)
    (h1 : L1.Sorted (fun a b => a ≤ b)) (h2 : L2.Sorted (fun a b => a ≤ b))
    (hcross : ∀ x ∈ L1, ∀ y ∈ L2, x ≤ y) : sortNat xs = L1 ++ L2 :=
  sortNat_eq_of hperm (by
    rw [List.Sorted, List.pairwise_append]
    exact ⟨h1, h2, hcross⟩)

theorem getD_drop (L : List Nat) (i j : Nat) (h : i + j < L.length) :
    (L.drop i).getD j 0 = L.getD (i + j) 0 := by
  rw [getD_eq_getElem _ j 0 (by rw [List.length_drop]; omega), getD_eq_getElem _ _ 0 h]
  exact List.getElem_drop L

theorem orderedInsert_append_skip (v : Nat) :
    ∀ (xs ys : List Nat), (∀ x ∈ xs, ¬ v ≤ x) →
      List.orderedInsert (fun a b => a ≤ b) v (xs ++ ys) =
        xs ++ List.orderedInsert (fun a b => a ≤ b) v ys
  | [], ys, _ => rfl
  | x :: xs, ys, h => by
    have hx : ¬ v ≤ x := h x (List.mem_cons_self x xs)
    simp only [List.cons_append, List.orderedInsert, if_neg hx]
    rw [show xs.append ys = xs ++ ys from rfl,
      orderedInsert_append_skip v xs ys (fun z hz => h z (List.mem_cons_of_mem x hz))]

theorem orderedInsert_append_stop (v r : Nat) (hvr : v ≤ r) :
    ∀ (xs t : List Nat),
      List.orderedInsert (fun a b => a ≤ b) v (xs ++ r :: t) =
        List.orderedInsert (fun a b => a ≤ b) v xs ++ r :: t
  | [], t => by simp [List.orderedInsert, if_pos hvr]
  | x :: xs, t => by
    by_cases hvx : v ≤ x
    · simp only [List.cons_append, List.orderedInsert, if_pos hvx]
      rfl
    · simp only [List.cons_append, List.orderedInsert, if_neg hvx]
      rw [show xs.append (r :: t) = xs ++ r :: t from rfl,
        orderedInsert_append_stop v r hvr xs t]

theorem orderedInsert_min (v : Nat) (L : List Nat) (h : ∀ y ∈ L, v ≤ y) :
    List.orderedInsert (fun a b => a ≤ b) v L = v :: L := by
  cases L with
  | nil => rfl
  | cons x l =>
    simp only [List.orderedInsert, if_pos (h x (List.mem_cons_self x l))]

/-! ## Levels and appended sorted segments -/

theorem levelsOf_length (a : List Player) : (levelsOf a).length = a.length :=
  List.length_map a Player.level_

theorem levelsOf_getD (a : List Player) (t : Nat) (h : t < a.length) :
    (levelsOf a).getD t 0 = (a.getD t default).level_ := by
  unfold levelsOf
  rw [getD_eq_getElem _ t 0 (by rw [List.length_map]; exact h),
    getD_eq_getElem a t default h, List.getElem_map]

theorem getD_append_left {α : Type} (l1 l2 : List α) (j : Nat) (d : α) (h : j < l1.length) :
    (l1 ++ l2).getD j d = l1.getD j d := by
  rw [getD_eq_getElem _ j d (by rw [List.length_append]; omega), getD_eq_getElem l1 j d h,
    List.getElem_append_left]

theorem sorted_drop {L : List Nat} (h : L.Sorted (fun a b => a ≤ b)) (m : Nat) :
    (L.drop m).Sorted (fun a b => a ≤ b) :=
  List.Pairwise.sublist (List.drop_sublist m L) h

theorem mem_take_getD {α : Type} (L : List α) (m : Nat) (d : α) {x : α}
    (h : x ∈ L.take m) : ∃ j, j < m ∧ j < L.length ∧ L.getD j d = x := by
  obtain ⟨j, hj, hval⟩ := List.mem_iff_getElem.mp h
  have hjm : j < m := by
    have := List.length_take m L
    omega
  have hjL : j < L.length := by
    have := List.length_take m L
    omega
  refine ⟨j, hjm, hjL, ?_⟩
  rw [getD_eq_getElem L j d hjL, ← List.getElem_take L (h := hj), hval]

theorem region_max_level (a : List Player) (S : List Nat) (n m : Nat)
    (hlen : a.length = n) (hm : 0 < m) (hmn : m ≤ n)
    (hS : sortNat (levelsOf a) = S)
    (htail : ∀ t, m ≤ t → t < n → (a.getD t default).level_ = S.getD t 0)
    (hdom : ∀ q, q < m → ∀ t, m ≤ t → t < n →
      (a.getD q default).level_ ≤ (a.getD t default).level_)
    (hroot : ∀ j, j < m → (a.getD j default).level_ ≤ (a.getD 0 default).level_) :
    S.getD (m - 1) 0 = (a.getD 0 default).level_ := by
  have hSlen : S.length = n := by
    rw [← hS, sortNat_length, levelsOf_length, hlen]
  have hlalen : (levelsOf a).length = n := by rw [levelsOf_length, hlen]
  have hL2 : (levelsOf a).drop m = S.drop m := by
    refine List.ext_getElem (by rw [List.length_drop, List.length_drop, hlalen, hSlen]) ?_
    intro j h1 h2
    rw [List.getElem_drop, List.getElem_drop]
    have hj : m + j < n := by
      rw [List.length_drop, hlalen] at h1
      omega
    rw [← getD_eq_getElem _ _ 0 (by omega), ← getD_eq_getElem _ _ 0 (by omega),
      levelsOf_getD a _ (by omega), htail (m + j) (by omega) hj]
  have hsplit : sortNat (levelsOf a) = sortNat ((levelsOf a).take m) ++ (levelsOf a).drop m := by
    refine sortNat_split (levelsOf a) _ _ ?_ (sortNat_sorted _)
      (by rw [hL2]; exact sorted_drop (hS ▸ sortNat_sorted (levelsOf a)) m) ?_
    · exact ((sortNat_perm _).append (List.Perm.refl _)).trans
        (by rw [List.take_append_drop])
    · intro x hx y hy
      obtain ⟨q, hq, hqlen, hqval⟩ := mem_take_getD (levelsOf a) m 0
        ((sortNat_perm _).mem_iff.mp hx)
      obtain ⟨j, hj, hjval⟩ := List.mem_iff_getElem.mp hy
      have hjn : m + j < n := by
        rw [List.length_drop, hlalen] at hj
        omega
      rw [← hqval, levelsOf_getD a q (by omega)]
      rw [List.getElem_drop] at hjval
      rw [← hjval, ← getD_eq_getElem _ _ 0 (by omega), levelsOf_getD a _ (by omega)]
      exact hdom q hq (m + j) (by omega) hjn
  have hfull : S = sortNat ((levelsOf a).take m) ++ S.drop m := by
    conv_lhs => rw [← hS, hsplit]
    rw [hL2]
  have hlen1 : (sortNat ((levelsOf a).take m)).length = m := by
    rw [sortNat_length, List.length_take]
    omega
  rw [hfull, getD_append_left _ _ _ _ (by omega)]
  have hmem : (a.getD 0 default).level_ ∈ sortNat ((levelsOf a).take m) := by
    rw [(sortNat_perm _).mem_iff]
    rw [List.mem_iff_getElem]
    refine ⟨0, by rw [List.length_take]; omega, ?_⟩
    rw [List.getElem_take, ← getD_eq_getElem _ _ 0 (by omega), levelsOf_getD a 0 (by omega)]
  have hbound : ∀ y ∈ sortNat ((levelsOf a).take m), y ≤ (a.getD 0 default).level_ := by
    intro y hy
    obtain ⟨q, hq, hqlen, hqval⟩ := mem_take_getD (levelsOf a) m 0
      ((sortNat_perm _).mem_iff.mp hy)
    rw [← hqval, levelsOf_getD a q (by omega)]
    exact hroot q hq
  have := sorted_last_eq_max (sortNat_sorted ((levelsOf a).take m)) hmem hbound
  rwa [hlen1] at this

/-! ## The pop loop of heapRank -/

theorem popInv_step (players a : List Player) (i : Nat) (hin : i < players.length)
    (H : PopInv players a i) : PopInv players (popHeapMax a (a.length - i)) (i + 1) := by
  obtain ⟨hlen, hperm, hheap, htail, hdom⟩ := H
  have hn0 : 0 < players.length := by omega
  rw [hlen]
  set n := players.length with hn
  set m := n - i with hm
  have hm1 : 1 ≤ m := by omega
  have hmn : m ≤ n := by omega
  set b := swapL a 0 (m - 1) with hb
  have hblen : b.length = n := by rw [hb, length_swapL, hlen]
  have hb_m1 : b.getD (m - 1) default = a.getD 0 default :=
    getD_swapL_right a 0 (m - 1) default (by omega) (by omega)
  have hb0 : b.getD 0 default = a.getD (m - 1) default := by
    by_cases h : m - 1 = 0
    · rw [h] at hb ⊢
      rw [hb]
      exact getD_swapL_right a 0 0 default (by omega) (by omega)
    · exact getD_swapL_left a 0 (m - 1) default (by omega) (by omega) (fun hh => h hh.symm)
  have hbother : ∀ t (d : Player), t ≠ 0 → t ≠ m - 1 → b.getD t d = a.getD t d :=
    fun t d h1 h2 => getD_swapL_other a 0 (m - 1) t d h1 h2
  have hroot : ∀ j, j < m → (a.getD j default).level_ ≤ (a.getD 0 default).level_ := by
    intro j hj
    have := heapFrom_root aboveMax aboveMax_ftr aboveMax_asym a m hheap j hj
    simpa [aboveMax] using this
  have hS : sortNat (levelsOf a) = sortNat (levelsOf players) :=
    sortNat_congr (List.Perm.map Player.level_ hperm)
  have hrootval : (sortNat (levelsOf players)).getD (m - 1) 0 = (a.getD 0 default).level_ :=
    region_max_level a (sortNat (levelsOf players)) n m hlen hm1 hmn hS htail hdom hroot
  have Hsub : ∀ p c, 0 < c → c < m - 1 → parentIdx c = p → IsDesc 0 p → p ≠ 0 →
      aboveMax (b.getD c default) (b.getD p default) = false := by
    intro p c hc hcn hpar hdesc hne
    subst hpar
    have hple : parentIdx c < c := parentIdx_lt hc
    rw [hbother c default (by omega) (by omega),
      hbother (parentIdx c) default hne (by omega)]
    exact hheap c hc (by omega) (Nat.zero_le _)
  obtain ⟨C1, C2, C3⟩ := siftDownAux_heap aboveMax aboveMax_tt aboveMax_ftr aboveMax_asym
    (m - 1 - 0) b (m - 1) 0 (by omega) (by omega) Hsub
  have hpop : popHeapMax a m = siftDownAux aboveMax (m - 1 - 0) b (m - 1) 0 := rfl
  rw [hpop]
  set A := siftDownAux aboveMax (m - 1 - 0) b (m - 1) 0 with hA
  have hAlen : A.length = n := by rw [hA, siftDownAux_length, hblen]
  have hstab : ∀ t (d : Player), m - 1 ≤ t → A.getD t d = b.getD t d :=
    fun t d ht => siftDownAux_stable aboveMax (m - 1 - 0) b (m - 1) 0 t d ht
  have hsub1 : n - (i + 1) = m - 1 := by omega
  refine ⟨hAlen, ?_, ?_, ?_, ?_⟩
  · exact ((siftDownAux_perm aboveMax _ b (m - 1) 0 (by omega)).trans
      (swapL_perm a 0 (m - 1) (by omega) (by omega))).trans hperm
  · rw [hsub1]
    intro c hc hcn ht
    exact C1 (parentIdx c) c hc hcn rfl (isDesc_zero _)
  · rw [hsub1]
    intro t ht htn
    by_cases hteq : t = m - 1
    · rw [hteq, hstab _ _ (by omega), hb_m1, ← hrootval]
    · have htm : m ≤ t := by omega
      rw [hstab t default (by omega), hbother t default (by omega) hteq]
      exact htail t htm htn
  · rw [hsub1]
    intro q hq t ht htn
    have hAq : ∃ j, j < m ∧ A.getD q default = a.getD j default := by
      obtain ⟨q0, _, hq0n, hval⟩ := C3 q (isDesc_zero q) (by omega)
      by_cases hq0 : q0 = 0
      · exact ⟨m - 1, by omega, by rw [hval, hq0, hb0]⟩
      · exact ⟨q0, by omega, by rw [hval, hbother q0 default hq0 (by omega)]⟩
    obtain ⟨j, hjm, hjval⟩ := hAq
    rw [hjval]
    by_cases hteq : t = m - 1
    · rw [hteq, hstab _ _ (by omega), hb_m1]
      exact hroot j hjm
    · have htm : m ≤ t := by omega
      rw [hstab t default (by omega), hbother t default (by omega) hteq]
      exact hdom j hjm t htm htn

theorem popLoop_length : ∀ (count i : Nat) (a : List Player),
    (popLoop a i count).length = a.length
  | 0, _, _ => rfl
  | count + 1, i, a => by
    rw [popLoop, popLoop_length count]
    unfold popHeapMax siftDown
    rw [siftDownAux_length, length_swapL]

theorem popInv_loop (players : List Player) : ∀ (count i : Nat) (a : List Player),
    i + count ≤ players.length → PopInv players a i →
    PopInv players (popLoop a i count) (i + count)
  | 0, i, a, _, H => H
  | count + 1, i, a, hle, H => by
    rw [popLoop]
    have hstep := popInv_step players a i (by omega) H
    have hrec := popInv_loop players count (i + 1) (popHeapMax a (a.length - i))
      (by omega) hstep
    have : i + 1 + count = i + (count + 1) := by omega
    rwa [this] at hrec

theorem popInv_init (players : List Player) : PopInv players (makeHeap aboveMax players) 0 := by
  refine ⟨makeHeap_length aboveMax players, makeHeap_perm aboveMax players, ?_, ?_, ?_⟩
  · rw [Nat.sub_zero]
    exact makeHeap_heapFrom aboveMax aboveMax_tt aboveMax_ftr aboveMax_asym players
  · intro t ht htn
    omega
  · intro q hq t ht htn
    omega

theorem heapRank_spec (players : List Player) :
    (heapRank players).cutoffs_ = [] ∧
    (heapRank players).top_.length = players.length / 10 ∧
    levelsOf (heapRank players).top_ =
      (sortNat (levelsOf players)).drop (players.length - players.length / 10) ∧
    (heapRank players).top_.Sorted levelLE := by
  set n := players.length with hn
  set k := n / 10 with hk
  have hkn : k ≤ n := Nat.div_le_self n 10
  obtain ⟨hlen, hperm, hheap, htail, hdom⟩ :=
    popInv_loop players k 0 (makeHeap aboveMax players) (by omega) (popInv_init players)
  set popped := popLoop (makeHeap aboveMax players) 0 k with hpop
  have hcut : (heapRank players).cutoffs_ = [] := rfl
  have htop : (heapRank players).top_ = popped.drop (popped.length - k) := rfl
  have htoplen : (heapRank players).top_.length = k := by
    rw [htop, List.length_drop, hlen]
    omega
  have hSlen : (sortNat (levelsOf players)).length = n := by
    rw [sortNat_length, levelsOf_length]
  have hlev : levelsOf (heapRank players).top_ =
      (sortNat (levelsOf players)).drop (n - k) := by
    rw [htop, hlen]
    refine List.ext_getElem ?_ ?_
    · rw [levelsOf_length, List.length_drop, List.length_drop, hlen, hSlen]
    · intro j h1 h2
      have hjk : j < k := by
        rw [levelsOf_length, List.length_drop, hlen] at h1
        omega
      show (List.map Player.level_ (popped.drop (n - k)))[j] = _
      rw [List.getElem_map, List.getElem_drop, List.getElem_drop]
      rw [← getD_eq_getElem _ _ default (by omega), ← getD_eq_getElem _ _ 0 (by omega)]
      exact htail (n - k + j) (by omega) (by omega)
  refine ⟨hcut, htoplen, hlev, ?_⟩
  have hsorted : (levelsOf (heapRank players).top_).Sorted (fun a b => a ≤ b) := by
    rw [hlev]
    exact sorted_drop (sortNat_sorted _) _
  unfold levelsOf at hsorted
  rw [List.Sorted, List.pairwise_map] at hsorted
  exact hsorted

/-! ## The streaming selector: buffer operations -/

theorem eq_cons_getD {α : Type} (L : List α) (d : α) (h : 0 < L.length) :
    L = L.getD 0 d :: L.tail := by
  cases L with
  | nil => simp at h
  | cons x t => rfl

theorem replaceMin_length (buf : List Player) (p : Player) :
    (replaceMin buf p).length = buf.length := by
  unfold replaceMin siftDown
  rw [siftDownAux_length, List.length_set]

theorem replaceMin_perm (buf : List Player) (p : Player) (h : 0 < buf.length) :
    (replaceMin buf p).Perm (p :: buf.tail) := by
  unfold replaceMin siftDown
  have h1 : (siftDownAux aboveMin (buf.length - 0) (buf.set 0 p) buf.length 0).Perm
      (buf.set 0 p) :=
    siftDownAux_perm aboveMin _ _ buf.length 0 (by rw [List.length_set])
  cases buf with
  | nil => simp at h
  | cons b0 bt => exact h1

theorem replaceMin_heapFrom (buf : List Player) (p : Player) (k : Nat)
    (hlen : buf.length = k) (hheap : HeapFrom aboveMin buf k 0) :
    HeapFrom aboveMin (replaceMin buf p) k 0 := by
  unfold replaceMin
  rw [hlen]
  refine siftDown_heapFrom aboveMin aboveMin_tt aboveMin_ftr aboveMin_asym
    (buf.set 0 p) k 0 (by rw [List.length_set, hlen]) ?_
  intro c hc hcn ht
  have hp1 : 1 ≤ parentIdx c := ht
  rw [getD_set_ne buf 0 c p default (by omega),
    getD_set_ne buf 0 (parentIdx c) p default (by omega)]
  exact hheap c hc hcn (Nat.zero_le _)

theorem heap_root_min (buf : List Player) (k : Nat) (hlen : buf.length = k)
    (hheap : HeapFrom aboveMin buf k 0) :
    ∀ j, j < k → (buf.getD 0 default).level_ ≤ (buf.getD j default).level_ := by
  intro j hj
  have := heapFrom_root aboveMin aboveMin_ftr aboveMin_asym buf k hheap j hj
  simpa [aboveMin] using this

theorem root_level_head (buf : List Player) (k : Nat) (hk : 0 < k) (hlen : buf.length = k)
    (hheap : HeapFrom aboveMin buf k 0) :
    (sortNat (levelsOf buf)).getD 0 0 = (buf.getD 0 default).level_ := by
  have hmin := heap_root_min buf k hlen hheap
  refine sorted_head_eq_min (sortNat_sorted _) ?_ ?_
  · rw [(sortNat_perm _).mem_iff, List.mem_iff_getElem]
    refine ⟨0, by rw [levelsOf_length]; omega, ?_⟩
    rw [← getD_eq_getElem _ _ 0 (by rw [levelsOf_length]; omega)]
    exact levelsOf_getD buf 0 (by omega)
  · intro y hy
    rw [(sortNat_perm _).mem_iff] at hy
    obtain ⟨j, hj, hval⟩ := List.mem_iff_getElem.mp hy
    rw [levelsOf_length] at hj
    rw [← hval, ← getD_eq_getElem _ _ 0 (by rw [levelsOf_length]; omega),
      levelsOf_getD buf j hj]
    exact hmin j (by omega)

theorem getD_tail {α : Type} (L : List α) (j : Nat) (d : α) :
    L.tail.getD j d = L.getD (j + 1) d := by
  cases L with
  | nil => rfl
  | cons x t => rfl

theorem stream_pre_bound (k : Nat) (hk : 1 ≤ k) (seen buf : List Player)
    (hm : k ≤ seen.length) (hlen : buf.length = k) (hheap : HeapFrom aboveMin buf k 0)
    (hcanon : sortNat (levelsOf buf) = (sortNat (levelsOf seen)).drop (seen.length - k)) :
    ∀ x ∈ (sortNat (levelsOf seen)).take (seen.length - k),
      x ≤ (buf.getD 0 default).level_ := by
  have hSlen : (sortNat (levelsOf seen)).length = seen.length := by
    rw [sortNat_length, levelsOf_length]
  have hhead : (sortNat (levelsOf buf)).getD 0 0 = (buf.getD 0 default).level_ :=
    root_level_head buf k (by omega) hlen hheap
  intro x hx
  obtain ⟨i, hi, hiS, hival⟩ := mem_take_getD (sortNat (levelsOf seen)) (seen.length - k) 0 hx
  rw [← hival]
  have h1 : (sortNat (levelsOf seen)).getD i 0 ≤
      (sortNat (levelsOf seen)).getD (seen.length - k) 0 :=
    sorted_getD_mono (sortNat_sorted _) (by omega) (by omega)
  have h2 : (sortNat (levelsOf seen)).getD (seen.length - k) 0 =
      (buf.getD 0 default).level_ := by
    rw [← hhead, hcanon]
    rw [getD_drop _ _ 0 (by omega), Nat.add_zero]
  omega

theorem stream_step_reject (k : Nat) (hk : 1 ≤ k) (seen buf : List Player) (p : Player)
    (hm : k ≤ seen.length) (hlen : buf.length = k) (hheap : HeapFrom aboveMin buf k 0)
    (hcanon : sortNat (levelsOf buf) = (sortNat (levelsOf seen)).drop (seen.length - k))
    (hrej : ¬ (buf.getD 0 default).level_ < p.level_) :
    sortNat (levelsOf buf) = (sortNat (levelsOf (seen ++ [p]))).drop (seen.length + 1 - k) := by
  have hSlen : (sortNat (levelsOf seen)).length = seen.length := by
    rw [sortNat_length, levelsOf_length]
  have hBlen : (sortNat (levelsOf buf)).length = k := by
    rw [sortNat_length, levelsOf_length, hlen]
  have hhead : (sortNat (levelsOf buf)).getD 0 0 = (buf.getD 0 default).level_ :=
    root_level_head buf k (by omega) hlen hheap
  have hBcons : sortNat (levelsOf buf) =
      (buf.getD 0 default).level_ :: (sortNat (levelsOf buf)).tail := by
    rw [← hhead]
    exact eq_cons_getD _ 0 (by omega)
  have hS' : sortNat (levelsOf (seen ++ [p])) =
      List.orderedInsert (fun a b => a ≤ b) p.level_ (sortNat (levelsOf seen)) := by
    unfold levelsOf
    rw [List.map_append]
    exact sortNat_append_single _ _
  have hsplit : sortNat (levelsOf seen) =
      (sortNat (levelsOf seen)).take (seen.length - k) ++
        ((buf.getD 0 default).level_ :: (sortNat (levelsOf buf)).tail) := by
    rw [← hBcons, hcanon, List.take_append_drop]
  rw [hS', hsplit,
    orderedInsert_append_stop p.level_ (buf.getD 0 default).level_ (by omega) _ _]
  have hlen2 : (List.orderedInsert (fun a b => a ≤ b) p.level_
      ((sortNat (levelsOf seen)).take (seen.length - k))).length = seen.length + 1 - k := by
    rw [(List.perm_orderedInsert _ _ _).length_eq]
    simp only [List.length_cons, List.length_take]
    omega
  rw [← hlen2, List.drop_left]
  exact hBcons

theorem stream_step_admit (k : Nat) (hk : 1 ≤ k) (seen buf : List Player) (p : Player)
    (hm : k ≤ seen.length) (hlen : buf.length = k) (hheap : HeapFrom aboveMin buf k 0)
    (hcanon : sortNat (levelsOf buf) = (sortNat (levelsOf seen)).drop (seen.length - k))
    (hadm : (buf.getD 0 default).level_ < p.level_) :
    (replaceMin buf p).length = k ∧
    HeapFrom aboveMin (replaceMin buf p) k 0 ∧
    sortNat (levelsOf (replaceMin buf p)) =
      (sortNat (levelsOf (seen ++ [p]))).drop (seen.length + 1 - k) ∧
    (buf.getD 0 default).level_ ≤ ((replaceMin buf p).getD 0 default).level_ := by
  have hSlen : (sortNat (levelsOf seen)).length = seen.length := by
    rw [sortNat_length, levelsOf_length]
  have hBlen : (sortNat (levelsOf buf)).length = k := by
    rw [sortNat_length, levelsOf_length, hlen]
  have hhead : (sortNat (levelsOf buf)).getD 0 0 = (buf.getD 0 default).level_ :=
    root_level_head buf k (by omega) hlen hheap
  have hBcons : sortNat (levelsOf buf) =
      (buf.getD 0 default).level_ :: (sortNat (levelsOf buf)).tail := by
    rw [← hhead]
    exact eq_cons_getD _ 0 (by omega)
  have hbufcons : buf = buf.getD 0 default :: buf.tail := eq_cons_getD buf default (by omega)
  have hlvcons : levelsOf buf = (buf.getD 0 default).level_ :: levelsOf buf.tail := by
    conv_lhs => rw [hbufcons]
    rfl
  have htmin : ∀ y ∈ sortNat (levelsOf buf.tail), (buf.getD 0 default).level_ ≤ y := by
    intro y hy
    rw [(sortNat_perm _).mem_iff] at hy
    obtain ⟨j, hj, hval⟩ := List.mem_iff_getElem.mp hy
    rw [levelsOf_length] at hj
    rw [← hval, ← getD_eq_getElem _ _ 0 (by rw [levelsOf_length]; omega),
      levelsOf_getD _ j hj, getD_tail]
    refine heap_root_min buf k hlen hheap (j + 1) ?_
    have : buf.tail.length = k - 1 := by
      rw [List.length_tail, hlen]
    omega
  have htB : sortNat (levelsOf buf.tail) = (sortNat (levelsOf buf)).tail := by
    have h1 : sortNat (levelsOf buf) =
        (buf.getD 0 default).level_ :: sortNat (levelsOf buf.tail) := by
      conv_lhs => rw [hlvcons]
      rw [sortNat_cons]
      exact orderedInsert_min _ _ htmin
    rw [h1]
    rfl
  have hperm1 : (replaceMin buf p).Perm (p :: buf.tail) := replaceMin_perm buf p (by omega)
  have hlev1 : (levelsOf (replaceMin buf p)).Perm (p.level_ :: levelsOf buf.tail) :=
    List.Perm.map Player.level_ hperm1
  have hLHS : sortNat (levelsOf (replaceMin buf p)) =
      List.orderedInsert (fun a b => a ≤ b) p.level_ (sortNat (levelsOf buf.tail)) := by
    rw [sortNat_congr hlev1, sortNat_cons]
  have hprebound := stream_pre_bound k hk seen buf hm hlen hheap hcanon
  have hS' : sortNat (levelsOf (seen ++ [p])) =
      List.orderedInsert (fun a b => a ≤ b) p.level_ (sortNat (levelsOf seen)) := by
    unfold levelsOf
    rw [List.map_append]
    exact sortNat_append_single _ _
  have hsplit : sortNat (levelsOf seen) =
      (sortNat (levelsOf seen)).take (seen.length - k) ++
        ((buf.getD 0 default).level_ :: (sortNat (levelsOf buf)).tail) := by
    rw [← hBcons, hcanon, List.take_append_drop]
  have hRHS : sortNat (levelsOf (seen ++ [p])) =
      ((sortNat (levelsOf seen)).take (seen.length - k) ++ [(buf.getD 0 default).level_]) ++
        List.orderedInsert (fun a b => a ≤ b) p.level_ ((sortNat (levelsOf buf)).tail) := by
    rw [hS']
    conv_lhs => rw [hsplit]
    rw [orderedInsert_append_skip p.level_ _ _ (fun x hx => by
        have := hprebound x hx
        omega)]
    have hoir : List.orderedInsert (fun a b => a ≤ b) p.level_
        ((buf.getD 0 default).level_ :: (sortNat (levelsOf buf)).tail) =
        (buf.getD 0 default).level_ ::
          List.orderedInsert (fun a b => a ≤ b) p.level_ ((sortNat (levelsOf buf)).tail) := by
      simp only [List.orderedInsert, if_neg (by omega : ¬ p.level_ ≤ (buf.getD 0 default).level_)]
    rw [hoir, List.append_assoc]
    rfl
  have hdroplen : ((sortNat (levelsOf seen)).take (seen.length - k) ++
      [(buf.getD 0 default).level_]).length = seen.length + 1 - k := by
    rw [List.length_append, List.length_take]
    simp only [List.length_cons, List.length_nil]
    omega
  have hcanon1 : sortNat (levelsOf (replaceMin buf p)) =
      (sortNat (levelsOf (seen ++ [p]))).drop (seen.length + 1 - k) := by
    rw [hRHS, ← hdroplen, List.drop_left, hLHS, htB]
  have hlen1 : (replaceMin buf p).length = k := by rw [replaceMin_length, hlen]
  have hheap1 : HeapFrom aboveMin (replaceMin buf p) k 0 := replaceMin_heapFrom buf p k hlen hheap
  refine ⟨hlen1, hheap1, hcanon1, ?_⟩
  have hroot1 : (sortNat (levelsOf (replaceMin buf p))).getD 0 0 =
      ((replaceMin buf p).getD 0 default).level_ :=
    root_level_head (replaceMin buf p) k (by omega) hlen1 hheap1
  rw [← hroot1, hLHS]
  have hoilen : 0 < (List.orderedInsert (fun a b => a ≤ b) p.level_
      (sortNat (levelsOf buf.tail))).length := by
    rw [(List.perm_orderedInsert _ _ _).length_eq]
    simp
  have hmem := getD_mem _ 0 0 hoilen
  rw [(List.perm_orderedInsert _ _ _).mem_iff] at hmem
  rcases List.mem_cons.mp hmem with h | h
  · omega
  · have := htmin _ h
    omega

/-! ## Checkpoint map properties -/

theorem mapInsert_fresh (m : List (Nat × Nat)) (c v : Nat) (h : ∀ q ∈ m, q.1 ≠ c) :
    mapInsert m c v = m ++ [(c, v)] := by
  unfold mapInsert
  rw [if_neg]
  simp only [List.any_eq_true, decide_eq_true_eq, not_exists]
  intro q hq
  exact h q hq.1 hq.2

theorem mapInsert_id (m : List (Nat × Nat)) (c v : Nat) (hex : ∃ q ∈ m, q.1 = c)
    (hvals : ∀ q ∈ m, q.1 = c → q.2 = v) : mapInsert m c v = m := by
  unfold mapInsert
  rw [if_pos (by simpa only [List.any_eq_true, decide_eq_true_eq] using hex)]
  have hid : ∀ q ∈ m, (if q.1 = c then (c, v) else q) = q := by
    intro q hq
    by_cases hc : q.1 = c
    · rw [if_pos hc]
      have := hvals q hq hc
      cases q
      simp only [Prod.mk.injEq]
      exact ⟨hc.symm, this.symm⟩
    · rw [if_neg hc]
  calc m.map (fun q => if q.1 = c then (c, v) else q) = m.map id := List.map_congr_left hid
    _ = m := List.map_id m

theorem mapLookup_of_mem : ∀ (m : List (Nat × Nat)) (c v : Nat),
    List.Pairwise (fun q1 q2 => q1.1 ≠ q2.1) m → (c, v) ∈ m → mapLookup m c = some v
  | [], _, _, _, hmem => absurd hmem (List.not_mem_nil _)
  | q0 :: m, c, v, hdist, hmem => by
    unfold mapLookup
    by_cases hc : q0.1 = c
    · rw [List.find?_cons_of_pos _ (by simpa using hc)]
      rcases List.mem_cons.mp hmem with heq | hmem2
    -- head case: the value matches; tail case contradicts key distinctness
      · rw [← heq] at hc ⊢
        simp
      · exact absurd hc ((List.pairwise_cons.mp hdist).1 (c, v) hmem2)
    · rw [List.find?_cons_of_neg _ (by simpa using hc)]
      rcases List.mem_cons.mp hmem with heq | hmem2
      · rw [← heq] at hc
        simp at hc
      · exact mapLookup_of_mem m c v (List.pairwise_cons.mp hdist).2 hmem2

theorem head?_getD {α : Type} (L : List α) (d : α) (h : 0 < L.length) :
    L.head? = some (L.getD 0 d) := by
  cases L with
  | nil => simp at h
  | cons x t => rfl

theorem root_cutVal (k : Nat) (seen buf : List Player) (hk : 1 ≤ k) (hm : k ≤ seen.length)
    (hlen : buf.length = k) (hheap : HeapFrom aboveMin buf k 0)
    (hcanon : sortNat (levelsOf buf) = (sortNat (levelsOf seen)).drop (seen.length - k)) :
    (buf.getD 0 default).level_ = cutVal k (levelsOf seen) := by
  unfold cutVal
  rw [levelsOf_length]
  have hhead : (sortNat (levelsOf buf)).getD 0 0 = (buf.getD 0 default).level_ :=
    root_level_head buf k (by omega) hlen hheap
  rw [← hhead, hcanon, getD_drop _ _ 0 (by rw [sortNat_length, levelsOf_length]; omega),
    Nat.add_zero]

theorem levelsOf_sortP (l : List Player) : levelsOf (sortP l) = sortNat (levelsOf l) := by
  refine (sortNat_eq_of ?_ ?_).symm
  · exact List.Perm.map _ (List.perm_insertionSort levelLE l)
  · have hs := List.sorted_insertionSort levelLE l
    unfold levelsOf sortP
    rw [List.Sorted, List.pairwise_map]
    exact hs

/-! ## Unfolding the consume loop one iteration at a time -/

theorem rankLoop_step_push (k fuel : Nat) (ps : List Player) (idx : Nat)
    (buf : List Player) (cuts : List (Nat × Nat)) (hidx : idx < ps.length)
    (hblt : buf.length < k) (hnofill : ¬ (buf ++ [ps.getD idx default]).length = k)
    (hmod : ¬ (idx + 1) % k = 0) :
    rankLoopAux k (fuel + 1) ⟨ps, idx⟩ buf cuts idx =
      rankLoopAux k fuel ⟨ps, idx + 1⟩ (buf ++ [ps.getD idx default]) cuts (idx + 1) := by
  have hrem : ¬ remaining ⟨ps, idx⟩ = 0 := by
    unfold remaining
    simp only
    omega
  have hnp : nextPlayer ⟨ps, idx⟩ = .ok (ps.getD idx default, ⟨ps, idx + 1⟩) := by
    unfold nextPlayer
    rw [if_neg (by simp only; omega)]
  simp only [rankLoopAux, if_neg hrem, hnp, if_pos hblt, if_neg hnofill, if_neg hmod]

theorem rankLoop_step_fill (k fuel : Nat) (ps : List Player) (idx : Nat)
    (buf : List Player) (cuts : List (Nat × Nat)) (r : Player) (hidx : idx < ps.length)
    (hblt : buf.length < k) (hfill : (buf ++ [ps.getD idx default]).length = k)
    (hmod : (idx + 1) % k = 0)
    (hhead : (makeHeap aboveMin (buf ++ [ps.getD idx default])).head? = some r) :
    rankLoopAux k (fuel + 1) ⟨ps, idx⟩ buf cuts idx =
      rankLoopAux k fuel ⟨ps, idx + 1⟩ (makeHeap aboveMin (buf ++ [ps.getD idx default]))
        (mapInsert cuts (idx + 1) r.level_) (idx + 1) := by
  have hrem : ¬ remaining ⟨ps, idx⟩ = 0 := by
    unfold remaining
    simp only
    omega
  have hnp : nextPlayer ⟨ps, idx⟩ = .ok (ps.getD idx default, ⟨ps, idx + 1⟩) := by
    unfold nextPlayer
    rw [if_neg (by simp only; omega)]
  simp only [rankLoopAux, if_neg hrem, hnp, if_pos hblt, if_pos hfill, if_pos hmod, hhead]

theorem rankLoop_step_full (k fuel : Nat) (ps : List Player) (idx : Nat)
    (buf : List Player) (cuts : List (Nat × Nat)) (root : Player) (hidx : idx < ps.length)
    (hbge : ¬ buf.length < k) (hhead : buf.head? = some root) :
    rankLoopAux k (fuel + 1) ⟨ps, idx⟩ buf cuts idx =
      (if (idx + 1) % k = 0 then
        match (if root.level_ < (ps.getD idx default).level_
            then replaceMin buf (ps.getD idx default) else buf).head? with
        | none => Except.error RankErr.emptyBuffer
        | some root1 =>
          rankLoopAux k fuel ⟨ps, idx + 1⟩
            (if root.level_ < (ps.getD idx default).level_
              then replaceMin buf (ps.getD idx default) else buf)
            (mapInsert cuts (idx + 1) root1.level_) (idx + 1)
      else
        rankLoopAux k fuel ⟨ps, idx + 1⟩
          (if root.level_ < (ps.getD idx default).level_
            then replaceMin buf (ps.getD idx default) else buf) cuts (idx + 1)) := by
  have hrem : ¬ remaining ⟨ps, idx⟩ = 0 := by
    unfold remaining
    simp only
    omega
  have hnp : nextPlayer ⟨ps, idx⟩ = .ok (ps.getD idx default, ⟨ps, idx + 1⟩) := by
    unfold nextPlayer
    rw [if_neg (by simp only; omega)]
  simp only [rankLoopAux, if_neg hrem, hnp, if_neg hbge, hhead]

theorem rankLoop_master (k : Nat) (hk : 1 ≤ k) (ps : List Player) :
    ∀ (fuel idx : Nat) (buf : List Player) (cuts : List (Nat × Nat)),
      idx ≤ ps.length → fuel = ps.length - idx →
      StreamInv k (ps.take idx) buf cuts →
      ∃ bufF cutsF,
        rankLoopAux k fuel ⟨ps, idx⟩ buf cuts idx =
          Except.ok (bufF, cutsF, ps.length) ∧
        StreamInv k ps bufF cutsF
  | 0, idx, buf, cuts, hle, hfuel, H => by
    have hidx : idx = ps.length := by omega
    subst hidx
    rw [List.take_length] at H
    exact ⟨buf, cuts, rfl, H⟩
  | fuel + 1, idx, buf, cuts, hle, hfuel, H => by
    have hidx : idx < ps.length := by omega
    have hseenlen : (ps.take idx).length = idx := by
      rw [List.length_take]
      omega
    set p := ps.getD idx default with hp
    have hseen1 : ps.take (idx + 1) = ps.take idx ++ [p] := by
      rw [List.take_succ, List.getElem?_eq_getElem hidx]
      simp only [Option.toList]
      rw [hp, getD_eq_getElem ps idx default hidx]
    have hseenlen1 : (ps.take (idx + 1)).length = idx + 1 := by
      rw [List.length_take]
      omega
    by_cases hfull : k ≤ idx
    · obtain ⟨_, hinv⟩ := H
      obtain ⟨hblen, hbheap, hbcanon, hcpair, hcprops⟩ := hinv (by rw [hseenlen]; omega)
      rw [hseenlen] at hbcanon
      have hbne : 0 < buf.length := by omega
      have hhead : buf.head? = some (buf.getD 0 default) := head?_getD buf default hbne
      set buf1 := if (buf.getD 0 default).level_ < p.level_ then replaceMin buf p else buf
        with hbuf1
      have hstep : buf1.length = k ∧ HeapFrom aboveMin buf1 k 0 ∧
          sortNat (levelsOf buf1) =
            (sortNat (levelsOf (ps.take (idx + 1)))).drop (idx + 1 - k) ∧
          (buf.getD 0 default).level_ ≤ (buf1.getD 0 default).level_ := by
        by_cases hadm : (buf.getD 0 default).level_ < p.level_
        · rw [hbuf1, if_pos hadm]
          obtain ⟨h1, h2, h3, h4⟩ := stream_step_admit k hk (ps.take idx) buf p
            (by rw [hseenlen]; omega) hblen hbheap (by rw [hseenlen]; exact hbcanon) hadm
          refine ⟨h1, h2, ?_, h4⟩
          rw [← hseen1, hseenlen] at h3
          exact h3
        · rw [hbuf1, if_neg hadm]
          refine ⟨hblen, hbheap, ?_, Nat.le_refl _⟩
          have h3 := stream_step_reject k hk (ps.take idx) buf p
            (by rw [hseenlen]; omega) hblen hbheap (by rw [hseenlen]; exact hbcanon) hadm
          rw [← hseen1, hseenlen] at h3
          exact h3
      obtain ⟨hb1len, hb1heap, hb1canon, hb1root⟩ := hstep
      have hb1ne : 0 < buf1.length := by omega
      have hhead1 : buf1.head? = some (buf1.getD 0 default) := head?_getD buf1 default hb1ne
      have hrootval : (buf1.getD 0 default).level_ =
          cutVal k (levelsOf (ps.take (idx + 1))) := by
        refine root_cutVal k (ps.take (idx + 1)) buf1 hk (by rw [hseenlen1]; omega)
          hb1len hb1heap ?_
        rw [hseenlen1]
        exact hb1canon
      have hcarry : ∀ q ∈ cuts, k ≤ q.1 ∧ q.1 ≤ (ps.take (idx + 1)).length ∧ q.1 % k = 0 ∧
          q.2 = cutVal k (levelsOf ((ps.take (idx + 1)).take q.1)) ∧
          q.2 ≤ (buf1.getD 0 default).level_ := by
        intro q hq
        obtain ⟨hq1, hq2, hq3, hq4, hq5⟩ := hcprops q hq
        rw [hseenlen] at hq2
        have e1 : min q.1 idx = q.1 := by omega
        have e2 : min q.1 (idx + 1) = q.1 := by omega
        refine ⟨hq1, by rw [hseenlen1]; omega, hq3, ?_, by omega⟩
        rw [List.take_take, e2]
        rw [List.take_take, e1] at hq4
        exact hq4
      by_cases hmod : (idx + 1) % k = 0
      · set cuts1 := mapInsert cuts (idx + 1) (buf1.getD 0 default).level_ with hcuts1
        have hfresh : ∀ q ∈ cuts, q.1 ≠ idx + 1 := fun q hq => by
          have h2 := (hcprops q hq).2.1
          rw [hseenlen] at h2
          omega
        have hcuts1eq : cuts1 = cuts ++ [(idx + 1, (buf1.getD 0 default).level_)] := by
          rw [hcuts1]
          exact mapInsert_fresh cuts _ _ hfresh
        have hinvnew : StreamInv k (ps.take (idx + 1)) buf1 cuts1 := by
          constructor
          · intro hc
            exact absurd hc (by rw [hseenlen1]; omega)
          · intro _
            refine ⟨hb1len, hb1heap, by rw [hseenlen1]; exact hb1canon, ?_, ?_⟩
            · rw [hcuts1eq, List.pairwise_append]
              refine ⟨hcpair, List.pairwise_singleton _ _, ?_⟩
              intro q hq b hb
              rw [List.mem_singleton] at hb
              subst hb
              obtain ⟨_, hq2, _, _, hq5⟩ := hcprops q hq
              rw [hseenlen] at hq2
              exact ⟨by omega, by omega⟩
            · intro q hq
              rw [hcuts1eq] at hq
              rcases List.mem_append.mp hq with hq | hq
              · exact hcarry q hq
              · rw [List.mem_singleton] at hq
                subst hq
                refine ⟨by omega, by rw [hseenlen1], hmod, ?_, Nat.le_refl _⟩
                rw [show ((idx + 1, (buf1.getD 0 default).level_) : Nat × Nat).2 =
                  (buf1.getD 0 default).level_ from rfl]
                rw [show ((idx + 1, (buf1.getD 0 default).level_) : Nat × Nat).1 =
                  idx + 1 from rfl]
                rw [List.take_take, Nat.min_self]
                exact hrootval
        obtain ⟨bufF, cutsF, heqF, hinvF⟩ := rankLoop_master k hk ps fuel (idx + 1)
          buf1 cuts1 (by omega) (by omega) hinvnew
        refine ⟨bufF, cutsF, ?_, hinvF⟩
        rw [rankLoop_step_full k fuel ps idx buf cuts (buf.getD 0 default) hidx
          (by omega) hhead, if_pos hmod, ← hp, ← hbuf1]
        simp only [hhead1]
        rw [← hcuts1]
        exact heqF
      · have hinvnew : StreamInv k (ps.take (idx + 1)) buf1 cuts := by
          constructor
          · intro hc
            exact absurd hc (by rw [hseenlen1]; omega)
          · intro _
            exact ⟨hb1len, hb1heap, by rw [hseenlen1]; exact hb1canon, hcpair, hcarry⟩
        obtain ⟨bufF, cutsF, heqF, hinvF⟩ := rankLoop_master k hk ps fuel (idx + 1)
          buf1 cuts (by omega) (by omega) hinvnew
        refine ⟨bufF, cutsF, ?_, hinvF⟩
        rw [rankLoop_step_full k fuel ps idx buf cuts (buf.getD 0 default) hidx
          (by omega) hhead, if_neg hmod, ← hp, ← hbuf1]
        exact heqF
    · obtain ⟨hpart, _⟩ := H
      obtain ⟨hbuf, hcuts⟩ := hpart (by rw [hseenlen]; omega)
      have hblt : buf.length < k := by
        rw [hbuf, hseenlen]
        omega
      have hlen1 : (buf ++ [p]).length = idx + 1 := by
        rw [List.length_append, hbuf, hseenlen]
        rfl
      by_cases hfill : idx + 1 = k
      · have hfill2 : (buf ++ [p]).length = k := by omega
        have hmod : (idx + 1) % k = 0 := by
          rw [hfill, Nat.mod_self]
        set buf1 := makeHeap aboveMin (buf ++ [p]) with hbuf1
        have hb1len : buf1.length = k := by
          rw [hbuf1, makeHeap_length]
          omega
        have hb1heap : HeapFrom aboveMin buf1 k 0 := by
          have h1 := makeHeap_heapFrom aboveMin aboveMin_tt aboveMin_ftr aboveMin_asym
            (buf ++ [p])
          rwa [hfill2] at h1
        have hb1perm : buf1.Perm (ps.take (idx + 1)) := by
          rw [hbuf1, hseen1, ← hbuf]
          exact makeHeap_perm aboveMin (buf ++ [p])
        have hb1canon : sortNat (levelsOf buf1) =
            (sortNat (levelsOf (ps.take (idx + 1)))).drop (idx + 1 - k) := by
          have h0 : idx + 1 - k = 0 := by omega
          rw [h0, List.drop_zero]
          exact sortNat_congr (List.Perm.map _ hb1perm)
        have hb1ne : 0 < buf1.length := by omega
        have hhead1 : buf1.head? = some (buf1.getD 0 default) := head?_getD buf1 default hb1ne
        have hrootval : (buf1.getD 0 default).level_ =
            cutVal k (levelsOf (ps.take (idx + 1))) :=
          root_cutVal k (ps.take (idx + 1)) buf1 hk (by rw [hseenlen1]; omega) hb1len hb1heap
            (by rw [hseenlen1]; exact hb1canon)
        set cuts1 := mapInsert cuts (idx + 1) (buf1.getD 0 default).level_ with hcuts1
        have hcuts1eq : cuts1 = [(idx + 1, (buf1.getD 0 default).level_)] := by
          rw [hcuts1, hcuts, mapInsert_fresh [] _ _ (by intro q hq; simp at hq)]
          rfl
        have hinvnew : StreamInv k (ps.take (idx + 1)) buf1 cuts1 := by
          constructor
          · intro hc
            exact absurd hc (by rw [hseenlen1]; omega)
          · intro _
            refine ⟨hb1len, hb1heap, by rw [hseenlen1]; exact hb1canon, ?_, ?_⟩
            · rw [hcuts1eq]
              exact List.pairwise_singleton _ _
            · intro q hq
              rw [hcuts1eq, List.mem_singleton] at hq
              subst hq
              refine ⟨by omega, by rw [hseenlen1], hmod, ?_, Nat.le_refl _⟩
              rw [show ((idx + 1, (buf1.getD 0 default).level_) : Nat × Nat).2 =
                (buf1.getD 0 default).level_ from rfl]
              rw [show ((idx + 1, (buf1.getD 0 default).level_) : Nat × Nat).1 =
                idx + 1 from rfl]
              rw [List.take_take, Nat.min_self]
              exact hrootval
        obtain ⟨bufF, cutsF, heqF, hinvF⟩ := rankLoop_master k hk ps fuel (idx + 1)
          buf1 cuts1 (by omega) (by omega) hinvnew
        refine ⟨bufF, cutsF, ?_, hinvF⟩
        rw [rankLoop_step_fill k fuel ps idx buf cuts (buf1.getD 0 default) hidx hblt
          (by rw [← hp]; exact hfill2) hmod (by rw [← hp, ← hbuf1]; exact hhead1),
          ← hp, ← hbuf1, ← hcuts1]
        exact heqF
      · have hnofill : ¬ (buf ++ [p]).length = k := by omega
        have hmod : ¬ (idx + 1) % k = 0 := by
          have h1 : (idx + 1) % k = idx + 1 := Nat.mod_eq_of_lt (by omega)
          omega
        have hinvnew : StreamInv k (ps.take (idx + 1)) (buf ++ [p]) cuts := by
          constructor
          · intro _
            exact ⟨by rw [hbuf, hseen1], hcuts⟩
          · intro hc
            exact absurd hc (by rw [hseenlen1]; omega)
        obtain ⟨bufF, cutsF, heqF, hinvF⟩ := rankLoop_master k hk ps fuel (idx + 1)
          (buf ++ [p]) cuts (by omega) (by omega) hinvnew
        refine ⟨bufF, cutsF, ?_, hinvF⟩
        rw [rankLoop_step_push k fuel ps idx buf cuts hidx hblt
          (by rw [← hp]; exact hnofill) hmod, ← hp]
        exact heqF

theorem rankIncoming_sorted_any (s : VectorPlayerStream) (k : Nat) (r : RankingResult)
    (h : rankIncoming s k = .ok r) : r.top_.Sorted levelLE := by
  unfold rankIncoming at h
  split at h
  · exact absurd h (by simp)
  · rename_i bufcuts buf cuts processed heq
    simp only [Except.ok.injEq] at h
    rw [← h]
    exact List.sorted_insertionSort levelLE buf

theorem rankIncoming_master (ps : List Player) (k : Nat) (hk : 1 ≤ k) :
    ∃ bufF cutsF1,
      rankIncoming ⟨ps, 0⟩ k = .ok { top_ := sortP bufF, cutoffs_ := cutsF1 } ∧
      (sortP bufF).length = min k ps.length ∧
      levelsOf (sortP bufF) = (sortNat (levelsOf ps)).drop (ps.length - k) ∧
      List.Pairwise (fun q1 q2 => q1.1 < q2.1 ∧ q1.2 ≤ q2.2) cutsF1 ∧
      (∀ q ∈ cutsF1, 0 < q.1 → q.1 % k = 0 → q.1 ≤ ps.length ∧
        q.2 = cutVal k (levelsOf (ps.take q.1))) ∧
      (k ≤ ps.length → mapLookup cutsF1 ps.length = some (cutVal k (levelsOf ps))) ∧
      (0 < ps.length → ps.length < k →
        cutsF1 = [(ps.length, (ps.getD 0 default).level_)]) ∧
      (ps.length = 0 → cutsF1 = []) := by
  have hinv0 : StreamInv k (ps.take 0) [] [] := by
    constructor
    · intro _
      exact ⟨by rw [List.take_zero], rfl⟩
    · intro hc
      rw [List.take_zero] at hc
      exact absurd hc (by simp; omega)
  obtain ⟨bufF, cutsF, heqF, hinvF⟩ := rankLoop_master k hk ps (remaining ⟨ps, 0⟩) 0 [] []
    (by omega) (by simp [remaining]) hinv0
  have hresult : rankIncoming ⟨ps, 0⟩ k = .ok { top_ := sortP bufF, cutoffs_ :=
      match bufF.head? with
      | some root => mapInsert cutsF ps.length root.level_
      | none => cutsF } := by
    unfold rankIncoming
    rw [heqF]
  by_cases hfull : k ≤ ps.length
  · obtain ⟨hblen, hbheap, hbcanon, hcpair, hcprops⟩ := hinvF.2 hfull
    have hbne : 0 < bufF.length := by omega
    have hhead : bufF.head? = some (bufF.getD 0 default) := head?_getD bufF default hbne
    simp only [hhead] at hresult
    have hrootval : (bufF.getD 0 default).level_ = cutVal k (levelsOf ps) :=
      root_cutVal k ps bufF hk hfull hblen hbheap hbcanon
    have hlentop : (sortP bufF).length = min k ps.length := by
      unfold sortP
      rw [List.length_insertionSort, hblen]
      omega
    have hlevtop : levelsOf (sortP bufF) = (sortNat (levelsOf ps)).drop (ps.length - k) := by
      rw [levelsOf_sortP, hbcanon]
    have hkeyne : ∀ q ∈ cutsF, q.1 = ps.length → q.2 = (bufF.getD 0 default).level_ := by
      intro q hq hq1
      obtain ⟨_, _, _, hq4, _⟩ := hcprops q hq
      rw [hq4, hq1, List.take_length, hrootval]
    by_cases hex : ∃ q ∈ cutsF, q.1 = ps.length
    · have hid : mapInsert cutsF ps.length (bufF.getD 0 default).level_ = cutsF :=
        mapInsert_id cutsF _ _ hex hkeyne
      rw [hid] at hresult
      refine ⟨bufF, cutsF, hresult, hlentop, hlevtop, hcpair, ?_, ?_, ?_, ?_⟩
      · intro q hq _ hqmod
        obtain ⟨_, hq2, _, hq4, _⟩ := hcprops q hq
        exact ⟨hq2, hq4⟩
      · intro _
        obtain ⟨q, hq, hq1⟩ := hex
        have hv := hkeyne q hq hq1
        have hqpair : (ps.length, cutVal k (levelsOf ps)) ∈ cutsF := by
          have : q = (ps.length, cutVal k (levelsOf ps)) := by
            cases q
            simp only [Prod.mk.injEq]
            simp only at hq1 hv
            rw [hv, hrootval]
            exact ⟨hq1, rfl⟩
          rwa [this] at hq
        refine mapLookup_of_mem cutsF _ _ ?_ hqpair
        exact List.Pairwise.imp (fun h => by omega) hcpair
      · intro h1 h2
        omega
      · intro h0
        omega
    · have hfresh : ∀ q ∈ cutsF, q.1 ≠ ps.length := by
        intro q hq hq1
        exact hex ⟨q, hq, hq1⟩
      have happ : mapInsert cutsF ps.length (bufF.getD 0 default).level_ =
          cutsF ++ [(ps.length, (bufF.getD 0 default).level_)] :=
        mapInsert_fresh cutsF _ _ hfresh
      rw [happ] at hresult
      have hpair1 : List.Pairwise (fun q1 q2 => q1.1 < q2.1 ∧ q1.2 ≤ q2.2)
          (cutsF ++ [(ps.length, (bufF.getD 0 default).level_)]) := by
        rw [List.pairwise_append]
        refine ⟨hcpair, List.pairwise_singleton _ _, ?_⟩
        intro q hq b hb
        rw [List.mem_singleton] at hb
        subst hb
        obtain ⟨_, hq2, _, _, hq5⟩ := hcprops q hq
        have := hfresh q hq
        exact ⟨by omega, by omega⟩
      refine ⟨bufF, _, hresult, hlentop, hlevtop, hpair1, ?_, ?_, ?_, ?_⟩
      · intro q hq _ hqmod
        rcases List.mem_append.mp hq with hq | hq
        · obtain ⟨_, hq2, _, hq4, _⟩ := hcprops q hq
          exact ⟨hq2, hq4⟩
        · rw [List.mem_singleton] at hq
          subst hq
          refine ⟨Nat.le_refl _, ?_⟩
          rw [show ((ps.length, (bufF.getD 0 default).level_) : Nat × Nat).2 =
            (bufF.getD 0 default).level_ from rfl]
          rw [show ((ps.length, (bufF.getD 0 default).level_) : Nat × Nat).1 =
            ps.length from rfl]
          rw [List.take_length, hrootval]
      · intro _
        refine mapLookup_of_mem _ _ _ ?_ ?_
        · exact List.Pairwise.imp (fun h => by omega) hpair1
        · rw [← hrootval]
          exact List.mem_append.mpr (Or.inr (List.mem_singleton.mpr rfl))
      · intro h1 h2
        omega
      · intro h0
        omega
  · obtain ⟨hbuf, hcuts⟩ := hinvF.1 (by omega)
    have hlentop : (sortP bufF).length = min k ps.length := by
      unfold sortP
      rw [List.length_insertionSort, hbuf]
      omega
    have hlevtop : levelsOf (sortP bufF) = (sortNat (levelsOf ps)).drop (ps.length - k) := by
      rw [levelsOf_sortP, hbuf, show ps.length - k = 0 from by omega, List.drop_zero]
    by_cases hnil : ps.length = 0
    · have hbnil : bufF = [] := by
        rw [hbuf]
        exact List.length_eq_zero.mp hnil
      have hheadnone : bufF.head? = none := by
        rw [hbnil]
        rfl
      simp only [hheadnone] at hresult
      refine ⟨bufF, cutsF, hresult, hlentop, hlevtop, by rw [hcuts]; exact List.Pairwise.nil,
        ?_, ?_, ?_, ?_⟩
      · intro q hq
        rw [hcuts] at hq
        exact absurd hq (List.not_mem_nil q)
      · intro h
        omega
      · intro h1 _
        exact absurd h1 (by omega)
      · intro _
        exact hcuts
    · have hbne : 0 < bufF.length := by
        rw [hbuf]
        omega
      have hhead : bufF.head? = some (bufF.getD 0 default) := head?_getD bufF default hbne
      simp only [hhead] at hresult
      have happ : mapInsert cutsF ps.length (bufF.getD 0 default).level_ =
          [(ps.length, (bufF.getD 0 default).level_)] := by
        rw [hcuts,
          mapInsert_fresh [] _ _ (by intro q hq; exact absurd hq (List.not_mem_nil q))]
        rfl
      rw [happ] at hresult
      have hfirst : bufF.getD 0 default = ps.getD 0 default := by
        rw [hbuf]
      refine ⟨bufF, _, hresult, hlentop, hlevtop, List.pairwise_singleton _ _,
        ?_, ?_, ?_, ?_⟩
      · intro q hq h0 hqmod
        rw [List.mem_singleton] at hq
        subst hq
        exfalso
        have hmodeq : ps.length % k = ps.length := Nat.mod_eq_of_lt (by omega)
        have hq1 : ((ps.length, (bufF.getD 0 default).level_) : Nat × Nat).1 = ps.length :=
          rfl
        rw [hq1] at hqmod
        omega
      · intro h
        omega
      · intro _ _
        rw [hfirst]
      · intro h0
        omega

theorem mapLookup_some_mem (m : List (Nat × Nat)) (c v : Nat)
    (h : mapLookup m c = some v) : (c, v) ∈ m := by
  unfold mapLookup at h
  cases hfind : m.find? (fun q => q.1 = c) with
  | none =>
    rw [hfind] at h
    exact absurd h (by simp)
  | some q =>
    rw [hfind] at h
    simp only [Option.map] at h
    have hmem := List.mem_of_find?_eq_some hfind
    have hprop := List.find?_some hfind
    simp only [decide_eq_true_eq] at hprop
    have hv : q.2 = v := Option.some.inj h
    have : q = (c, v) := by
      cases q
      simp only [Prod.mk.injEq]
      simp only at hprop hv
      exact ⟨hprop, hv⟩
    rwa [this] at hmem

theorem mapLookup_singleton (c v : Nat) : mapLookup [(c, v)] c = some v := by
  unfold mapLookup
  rw [List.find?_cons_of_pos _ (by simp)]
  rfl

theorem pairwise_mem_rel : ∀ (m : List (Nat × Nat)),
    List.Pairwise (fun q1 q2 => q1.1 < q2.1 ∧ q1.2 ≤ q2.2) m →
    ∀ {a b : Nat × Nat}, a ∈ m → b ∈ m → a.1 < b.1 → a.2 ≤ b.2
  | [], _, a, b, ha, _, _ => absurd ha (List.not_mem_nil a)
  | q :: m, hp, a, b, ha, hb, hab => by
    obtain ⟨hq, hm⟩ := List.pairwise_cons.mp hp
    rcases List.mem_cons.mp ha with rfl | ha2
    · rcases List.mem_cons.mp hb with rfl | hb2
      · omega
      · exact (hq b hb2).2
    · rcases List.mem_cons.mp hb with rfl | hb2
      · have := (hq a ha2).1
        omega
      · exact pairwise_mem_rel m hm ha2 hb2 hab

theorem topKMinLevel_cutVal (k : Nat) (l : List Player) :
    topKMinLevel k l = cutVal k (levelsOf l) := by
  unfold topKMinLevel cutVal
  rw [levelsOf_length]

theorem mem_levels_iff (l : List Player) (x : Player) : x.level_ ∈ levelsOf l ↔ x ∈ l := by
  unfold levelsOf
  rw [List.mem_map]
  constructor
  · rintro ⟨y, hy, hxy⟩
    have hyx : y = x := by
      cases x
      cases y
      simp_all
    rwa [hyx] at hy
  · intro h
    exact ⟨x, h, rfl⟩

theorem sorted_nodup_getD_lt {S : List Nat} (hs : S.Sorted (fun a b => a ≤ b))
    (hnd : S.Nodup) {i j : Nat} (hi : i < S.length) (hj : j < S.length) (hij : i < j) :
    S.getD i 0 < S.getD j 0 := by
  have h1 := sorted_getD_mono hs (Nat.le_of_lt hij) hj
  have h2 : S[i] ≠ S[j] := (List.pairwise_iff_getElem.mp hnd) i j hi hj hij
  rw [getD_eq_getElem _ _ 0 hi, getD_eq_getElem _ _ 0 hj] at h1 ⊢
  omega

/-! ## The claims -/

/-- C1: the Offline Partition Selector is claimed to return the
`floor(0.1*N)` entities with the greatest level; in particular, on the ten
distinct levels `1..10` it should return `top = [10]`.  Evaluating the code
on that input shows it returns `top = [1]` instead — the Lomuto partition
moves entities with levels `≥` the pivot toward the low indices, so the
trailing slice `[cutoffIndex, N)` that `quickSelectRank` returns holds the
smallest levels, contradicting the selector's own stated contract. -/
theorem quickSelectRank_ten_distinct :
    (quickSelectRank [⟨1⟩, ⟨2⟩, ⟨3⟩, ⟨4⟩, ⟨5⟩, ⟨6⟩, ⟨7⟩, ⟨8⟩, ⟨9⟩, ⟨10⟩]).top_ = [⟨1⟩] ∧
    (quickSelectRank [⟨1⟩, ⟨2⟩, ⟨3⟩, ⟨4⟩, ⟨5⟩, ⟨6⟩, ⟨7⟩, ⟨8⟩, ⟨9⟩, ⟨10⟩]).top_ ≠ [⟨10⟩] := by
  decide

/-- C2: the streaming selector is claimed to reject capacity `k = 0` with
an `InvalidCapacity` error before consuming any input.  The code has no
such check: on a one-entity source with `k = 0` it consumes the entity and
then reads `front()` of the still-empty buffer (undefined behaviour,
surfaced in the model as `emptyBuffer`), and on an empty source it returns
a successful empty outcome rather than any error. -/
theorem rankIncoming_zero_capacity_fault :
    rankIncoming ⟨[⟨5⟩], 0⟩ 0 = .error .emptyBuffer ∧
    rankIncoming ⟨[], 0⟩ 0 = .ok { top_ := [], cutoffs_ := [] } :=
  ⟨rfl, rfl⟩

/-- C3 counterexample: for capacity `k = 3` and the two-entity stream with
levels `[5, 1]`, the final checkpoint at the true total count `2` holds the
value `5` — the level of the first entity in the (never-heapified) buffer —
while the minimum level among the returned top set `[1, 5]` is `1`; the
level-1 entity is a member of the top set and `5 ≤ 1` fails, so the claimed
equality between the final checkpoint value and the minimum level of the
top set is false. -/
theorem rankIncoming_short_final_cutoff_cex :
    rankIncoming ⟨[⟨5⟩, ⟨1⟩], 0⟩ 3 =
      .ok { top_ := [⟨1⟩, ⟨5⟩], cutoffs_ := [(2, 5)] } ∧
    mapLookup [(2, 5)] 2 = some 5 ∧
    (⟨1⟩ : Player) ∈ ([⟨1⟩, ⟨5⟩] : List Player) ∧ ¬ (5 : Nat) ≤ 1 :=
  ⟨rfl, rfl, by decide, by decide⟩

/-- C3 amended: for every stream and capacity `k ≥ 1`, if the top set is
non-empty then checkpoints contains a key equal to the true total number of
entities processed; when at least `k` entities were processed its value is
the minimum level among the returned top set (the admission bar), and when
fewer than `k` were processed it is the level of the first entity of the
stream (the front of the never-heapified buffer). -/
theorem rankIncoming_final_cutoff (ps : List Player) (k : Nat) (r : RankingResult)
    (hk : 1 ≤ k) (hne : ps ≠ []) (hr : rankIncoming ⟨ps, 0⟩ k = .ok r) :
    r.top_ ≠ [] ∧
    (k ≤ ps.length →
      mapLookup r.cutoffs_ ps.length = some ((r.top_.getD 0 default).level_) ∧
      ∀ y ∈ r.top_, (r.top_.getD 0 default).level_ ≤ y.level_) ∧
    (ps.length < k → mapLookup r.cutoffs_ ps.length = some ((ps.getD 0 default).level_)) := by
  obtain ⟨bufF, cutsF1, heq, hlen, hlev, hpair, hvals, hlook, hshort, hnilc⟩ :=
    rankIncoming_master ps k hk
  rw [hr] at heq
  have hreq := Except.ok.inj heq
  subst hreq
  simp only [show ∀ (x : List Player) (y : List (Nat × Nat)),
      ({ top_ := x, cutoffs_ := y } : RankingResult).top_ = x from fun _ _ => rfl,
    show ∀ (x : List Player) (y : List (Nat × Nat)),
      ({ top_ := x, cutoffs_ := y } : RankingResult).cutoffs_ = y from fun _ _ => rfl]
  have hpslen : 0 < ps.length := List.length_pos.mpr hne
  have htoplen : (sortP bufF).length = min k ps.length := hlen
  have htopne : 0 < (sortP bufF).length := by omega
  refine ⟨by intro h; rw [h] at htopne; simp at htopne, ?_, ?_⟩
  · intro hfull
    have hgd : ((sortP bufF).getD 0 default).level_ = (levelsOf (sortP bufF)).getD 0 0 :=
      (levelsOf_getD (sortP bufF) 0 htopne).symm
    have hSlen : (sortNat (levelsOf ps)).length = ps.length := by
      rw [sortNat_length, levelsOf_length]
    have hcut : ((sortP bufF).getD 0 default).level_ = cutVal k (levelsOf ps) := by
      rw [hgd, hlev, getD_drop _ _ 0 (by omega), Nat.add_zero]
      unfold cutVal
      rw [levelsOf_length]
    constructor
    · rw [hcut]
      exact hlook hfull
    · intro y hy
      have hysort : y.level_ ∈ levelsOf (sortP bufF) := (mem_levels_iff _ y).mpr hy
      have hs : (levelsOf (sortP bufF)).Sorted (fun a b => a ≤ b) := by
        rw [hlev]
        exact sorted_drop (sortNat_sorted _) _
      have := sorted_getD_le_mem hs hysort
      rw [hgd]
      exact this
  · intro hshort2
    rw [hshort hpslen hshort2]
    exact mapLookup_singleton _ _

/-- C4: for every stream with pairwise-distinct levels and capacity
`k ≥ 1`, the streaming selector returns a top set of size
`min(k, total entities seen)` whose members come from the stream, whose
levels are exactly the top `k` slice of the ascending sort of all levels
seen, and every stream entity outside the top set has a strictly smaller
level than every member of the top set. -/
theorem rankIncoming_topk (ps : List Player) (k : Nat) (r : RankingResult)
    (hk : 1 ≤ k) (hdist : (levelsOf ps).Nodup)
    (hr : rankIncoming ⟨ps, 0⟩ k = .ok r) :
    r.top_.length = min k ps.length ∧
    (∀ y ∈ r.top_, y ∈ ps) ∧
    levelsOf r.top_ = (sortNat (levelsOf ps)).drop (ps.length - k) ∧
    (∀ x ∈ ps, x ∉ r.top_ → ∀ y ∈ r.top_, x.level_ < y.level_) := by
  obtain ⟨bufF, cutsF1, heq, hlen, hlev, _, _, _, _, _⟩ := rankIncoming_master ps k hk
  rw [hr] at heq
  have hreq := Except.ok.inj heq
  subst hreq
  simp only [show ∀ (x : List Player) (y : List (Nat × Nat)),
      ({ top_ := x, cutoffs_ := y } : RankingResult).top_ = x from fun _ _ => rfl,
    show ∀ (x : List Player) (y : List (Nat × Nat)),
      ({ top_ := x, cutoffs_ := y } : RankingResult).cutoffs_ = y from fun _ _ => rfl]
  have hSlen : (sortNat (levelsOf ps)).length = ps.length := by
    rw [sortNat_length, levelsOf_length]
  have hSnd : (sortNat (levelsOf ps)).Nodup := (sortNat_perm (levelsOf ps)).nodup_iff.mpr hdist
  have hmemtop : ∀ y ∈ sortP bufF, y ∈ ps := by
    intro y hy
    have h1 : y.level_ ∈ levelsOf (sortP bufF) := (mem_levels_iff _ y).mpr hy
    rw [hlev] at h1
    have h2 : y.level_ ∈ sortNat (levelsOf ps) := List.mem_of_mem_drop h1
    rw [(sortNat_perm _).mem_iff] at h2
    exact (mem_levels_iff ps y).mp h2
  refine ⟨hlen, hmemtop, hlev, ?_⟩
  intro x hx hnx y hy
  have hxS : x.level_ ∈ sortNat (levelsOf ps) := by
    rw [(sortNat_perm _).mem_iff]
    exact (mem_levels_iff ps x).mpr hx
  obtain ⟨i, hi, hival⟩ := List.mem_iff_getElem.mp hxS
  have hyT : y.level_ ∈ levelsOf (sortP bufF) := (mem_levels_iff _ y).mpr hy
  rw [hlev] at hyT
  obtain ⟨j, hj, hjval⟩ := List.mem_iff_getElem.mp hyT
  rw [List.getElem_drop] at hjval
  have hjlen : ps.length - k + j < (sortNat (levelsOf ps)).length := by
    rw [List.length_drop] at hj
    omega
  have hilt : i < ps.length - k := by
    by_contra hcon
    have hxdrop : x.level_ ∈ (sortNat (levelsOf ps)).drop (ps.length - k) := by
      rw [List.mem_iff_getElem]
      refine ⟨i - (ps.length - k), by rw [List.length_drop]; omega, ?_⟩
      rw [List.getElem_drop, ← hival]
      congr 1
      omega
    rw [← hlev] at hxdrop
    exact hnx ((mem_levels_iff _ x).mp hxdrop)
  have hlt := sorted_nodup_getD_lt (sortNat_sorted (levelsOf ps)) hSnd
    (by omega : i < (sortNat (levelsOf ps)).length) hjlen (by omega)
  rw [getD_eq_getElem _ _ 0 (by omega), getD_eq_getElem _ _ 0 hjlen, hival, hjval] at hlt
  exact hlt

/-- C5: the Offline Heap Selector returns an outcome whose `top` holds
exactly `floor(0.1*N)` entities — the top slice of the ascending sort of
all input levels, i.e. the greatest levels of the input as a multiset —
with empty checkpoints; for `N < 10` (including `N = 0`) the top set is
empty and no error occurs. -/
theorem heapRank_topfraction (players : List Player) :
    (heapRank players).cutoffs_ = [] ∧
    (heapRank players).top_.length = players.length / 10 ∧
    levelsOf (heapRank players).top_ =
      (sortNat (levelsOf players)).drop (players.length - players.length / 10) ∧
    (players.length < 10 → (heapRank players).top_ = []) := by
  obtain ⟨h1, h2, h3, _⟩ := heapRank_spec players
  refine ⟨h1, h2, h3, ?_⟩
  intro hlt
  have h0 : players.length / 10 = 0 := Nat.div_eq_of_lt hlt
  rw [h0] at h2
  exact List.length_eq_zero.mp h2

/-- C6: every checkpoint key `c` that is a positive multiple of the
capacity `k` and at most the total number of entities processed carries
the minimum level of the top-`k` set of the first `c` entities, i.e. the
`k`-th largest level of that prefix. -/
theorem rankIncoming_checkpoint_values (ps : List Player) (k : Nat) (r : RankingResult)
    (hk : 1 ≤ k) (hr : rankIncoming ⟨ps, 0⟩ k = .ok r) (c v : Nat)
    (hc : mapLookup r.cutoffs_ c = some v) (hc0 : 0 < c) (hcmod : c % k = 0)
    (hctot : c ≤ ps.length) : v = topKMinLevel k (ps.take c) := by
  obtain ⟨bufF, cutsF1, heq, _, _, _, hvals, _, _, _⟩ := rankIncoming_master ps k hk
  rw [hr] at heq
  have hreq := Except.ok.inj heq
  subst hreq
  simp only [show ∀ (x : List Player) (y : List (Nat × Nat)),
      ({ top_ := x, cutoffs_ := y } : RankingResult).cutoffs_ = y from fun _ _ => rfl] at hc
  have hmem := mapLookup_some_mem cutsF1 c v hc
  have := (hvals (c, v) hmem hc0 hcmod).2
  rw [topKMinLevel_cutVal]
  exact this

/-- C7: checkpoint values are non-decreasing in the processed count: for
any two recorded checkpoint keys `c1 < c2`, the value at `c1` is at most
the value at `c2` (the admission bar never drops). -/
theorem rankIncoming_checkpoints_monotone (ps : List Player) (k : Nat) (r : RankingResult)
    (hk : 1 ≤ k) (hr : rankIncoming ⟨ps, 0⟩ k = .ok r) (c1 c2 v1 v2 : Nat)
    (h1 : mapLookup r.cutoffs_ c1 = some v1) (h2 : mapLookup r.cutoffs_ c2 = some v2)
    (hlt : c1 < c2) : v1 ≤ v2 := by
  obtain ⟨bufF, cutsF1, heq, _, _, hpair, _, _, _, _⟩ := rankIncoming_master ps k hk
  rw [hr] at heq
  have hreq := Except.ok.inj heq
  subst hreq
  simp only [show ∀ (x : List Player) (y : List (Nat × Nat)),
      ({ top_ := x, cutoffs_ := y } : RankingResult).cutoffs_ = y from fun _ _ => rfl]
    at h1 h2
  exact pairwise_mem_rel cutsF1 hpair (mapLookup_some_mem _ _ _ h1)
    (mapLookup_some_mem _ _ _ h2) hlt

/-- C8: the top sequence of the outcome of each of the three selectors is
sorted ascending by level on every non-error return: unconditionally for
the two offline selectors, and whenever the streaming selector returns
successfully. -/
theorem selectors_sorted (l1 l2 : List Player) (s : VectorPlayerStream) (k : Nat) :
    (heapRank l1).top_.Sorted levelLE ∧
    (quickSelectRank l2).top_.Sorted levelLE ∧
    (∀ r, rankIncoming s k = .ok r → r.top_.Sorted levelLE) := by
  refine ⟨(heapRank_spec l1).2.2.2, ?_, fun r hr => rankIncoming_sorted_any s k r hr⟩
  exact List.sorted_insertionSort levelLE _

/-- C9: `nextPlayer` fails with the exhaustion error exactly when
`remaining` is zero at call time; otherwise it returns the entity at the
cursor, advances the cursor by one, and `remaining` decreases by exactly
one. -/
theorem nextPlayer_spec (s : VectorPlayerStream) :
    (nextPlayer s = .error .exhausted ↔ remaining s = 0) ∧
    (0 < remaining s →
      nextPlayer s = .ok (s.players_.getD s.currentIndex_ default,
        { players_ := s.players_, currentIndex_ := s.currentIndex_ + 1 }) ∧
      remaining { players_ := s.players_, currentIndex_ := s.currentIndex_ + 1 } + 1 =
        remaining s) := by
  constructor
  · constructor
    · intro h
      by_cases hc : s.currentIndex_ ≥ s.players_.length
      · unfold remaining
        omega
      · unfold nextPlayer at h
        rw [if_neg hc] at h
        exact absurd h (by simp)
    · intro h
      have hc : s.currentIndex_ ≥ s.players_.length := by
        unfold remaining at h
        omega
      unfold nextPlayer
      rw [if_pos hc]
  · intro h
    have hc : ¬ s.currentIndex_ ≥ s.players_.length := by
      unfold remaining at h
      omega
    refine ⟨by unfold nextPlayer; rw [if_neg hc], ?_⟩
    unfold remaining
    simp only
    omega

/-- C10: for every stream and capacity `k ≥ 1`, the streaming selector
returns successfully — it never requests an entity from an exhausted
source (it checks `remaining` before every read) and never reads the front
of an empty buffer, so neither fault of the model can occur. -/
theorem rankIncoming_no_fault (ps : List Player) (k : Nat) (hk : 1 ≤ k) :
    ∃ r, rankIncoming ⟨ps, 0⟩ k = .ok r := by
  obtain ⟨bufF, cutsF1, heq, _⟩ := rankIncoming_master ps k hk
  exact ⟨_, heq⟩

/-- Witness for C3's amended theorem at the stream `[5, 1]` with capacity 3:
the final checkpoint carries the first entity's level. -/
theorem rankIncoming_final_cutoff_witness :
    mapLookup [(2, 5)] 2 = some ((([⟨5⟩, ⟨1⟩] : List Player).getD 0 default).level_) :=
  (rankIncoming_final_cutoff [⟨5⟩, ⟨1⟩] 3 { top_ := [⟨1⟩, ⟨5⟩], cutoffs_ := [(2, 5)] }
    (by decide) (by decide) rfl).2.2 (by decide)

/-- Witness for C4 at the distinct-level stream `[5, 1, 9]` with capacity 2. -/
theorem rankIncoming_topk_witness :
    ({ top_ := [⟨5⟩, ⟨9⟩], cutoffs_ := [(2, 1), (3, 5)] } : RankingResult).top_.length =
      min 2 ([⟨5⟩, ⟨1⟩, ⟨9⟩] : List Player).length :=
  (rankIncoming_topk [⟨5⟩, ⟨1⟩, ⟨9⟩] 2
    { top_ := [⟨5⟩, ⟨9⟩], cutoffs_ := [(2, 1), (3, 5)] } (by decide) (by decide) rfl).1

/-- Witness for C5 at a one-entity input: the top fraction is empty. -/
theorem heapRank_topfraction_witness : (heapRank [⟨3⟩]).top_ = [] :=
  (heapRank_topfraction [⟨3⟩]).2.2.2 (by decide)

/-- Witness for C6 at the stream `[5, 1, 9, 2]` with capacity 2: the
checkpoint at count 2 holds the second-largest level of the first two
entities. -/
theorem rankIncoming_checkpoint_values_witness :
    (1 : Nat) = topKMinLevel 2 (([⟨5⟩, ⟨1⟩, ⟨9⟩, ⟨2⟩] : List Player).take 2) :=
  rankIncoming_checkpoint_values [⟨5⟩, ⟨1⟩, ⟨9⟩, ⟨2⟩] 2
    { top_ := [⟨5⟩, ⟨9⟩], cutoffs_ := [(2, 1), (4, 5)] } (by decide) rfl 2 1
    (by decide) (by decide) (by decide) (by decide)

/-- Witness for C7 at the stream `[5, 1, 9, 2]` with capacity 2: the
checkpoint values at counts 2 and 4 are in order. -/
theorem rankIncoming_checkpoints_monotone_witness : (1 : Nat) ≤ 5 :=
  rankIncoming_checkpoints_monotone [⟨5⟩, ⟨1⟩, ⟨9⟩, ⟨2⟩] 2
    { top_ := [⟨5⟩, ⟨9⟩], cutoffs_ := [(2, 1), (4, 5)] } (by decide) rfl 2 4 1 5
    (by decide) (by decide) (by decide)

/-- Witness for C8 at a concrete streaming run. -/
theorem selectors_sorted_witness :
    ({ top_ := [⟨1⟩, ⟨5⟩], cutoffs_ := [(2, 5)] } : RankingResult).top_.Sorted levelLE :=
  (selectors_sorted [] [] ⟨[⟨5⟩, ⟨1⟩], 0⟩ 3).2.2
    { top_ := [⟨1⟩, ⟨5⟩], cutoffs_ := [(2, 5)] } rfl

/-- Witness for C9 at a one-entity stream with the cursor at the start. -/
theorem nextPlayer_spec_witness :
    nextPlayer ⟨[⟨1⟩], 0⟩ = .ok (⟨1⟩, ⟨[⟨1⟩], 1⟩) ∧
    remaining ⟨[⟨1⟩], 1⟩ + 1 = remaining ⟨[⟨1⟩], 0⟩ :=
  (nextPlayer_spec ⟨[⟨1⟩], 0⟩).2 (by decide)

/-- Witness for C10 at a one-entity stream with capacity 1. -/
theorem rankIncoming_no_fault_witness : ∃ r, rankIncoming ⟨[⟨5⟩], 0⟩ 1 = .ok r :=
  rankIncoming_no_fault [⟨5⟩] 1 (by decide)
